import Mathlib

/-!
# Verification of the control-flow-graph restructuring core (graphism/exp)

Shallow embedding of the cfg / flow / cfa packages: the attributed directed
graph with named nodes (`cfg.Graph`), the collapse operation `cfg.Merge`, DFS
numbering (`cfg.InitDFSOrder`, `cfg.SortByRevPost`), Allen-Cocke interval
analysis (`flow.Intervals`), the derived-graph sequence (`cfa.DerivedGraphSeq`),
loop structuring (`cfa.findLatch`, `cfa.isBackEdge`, `cfa.loop`), 2-way
conditional structuring (`cfa.struct2Way`, `cfa.find2WayFollow`) and the entry
validation of `cfg.ParseBytes`.

Node identity within a graph is by name (a string); the embedding therefore
represents a graph by its list of node names, its list of directed edges
between names, and the name held by the graph's entry field (the `entry`
field of `cfg.Graph` stores a node reference; we record the referenced node's
name, `none` standing for a nil reference).
-/

namespace CfgExp

/-- A control flow graph: node names, directed edges between names, and the
name of the node referenced by the graph's entry field (`none` for nil).
Mirrors `cfg.Graph` of `src/cfg/graph.go`, with node identity by name. -/
structure Graph where
  nodes : List String
  edges : List (String × String)
  entry : Option String
deriving Repr, DecidableEq

/-- Successors of a node, `Graph.From` of the gonum directed graph:
the nodes m with an edge (n, m). -/
def succs (g : Graph) (n : String) : List String :=
  g.nodes.filter (fun m => (n, m) ∈ g.edges)

/-- Predecessors of a node, `Graph.To` of the gonum directed graph:
the nodes p with an edge (p, n). -/
def preds (g : Graph) (n : String) : List String :=
  g.nodes.filter (fun p => (p, n) ∈ g.edges)

/-- Well-formed graph: node names are unique (the graph's node table is keyed
by name) and every edge endpoint is a node of the graph. -/
def WF (g : Graph) : Prop :=
  g.nodes.Nodup ∧ ∀ e ∈ g.edges, e.1 ∈ g.nodes ∧ e.2 ∈ g.nodes

/-- One step of the edge relation of a graph. -/
def Step (g : Graph) (a b : String) : Prop :=
  a ∈ g.nodes ∧ b ∈ g.nodes ∧ (a, b) ∈ g.edges

/-- `Reaches g a b`: node b is reachable from node a along edges of g. -/
def Reaches (g : Graph) (a b : String) : Prop :=
  Relation.ReflTransGen (Step g) a b

theorem mem_succs {g : Graph} {n m : String} :
    m ∈ succs g n ↔ m ∈ g.nodes ∧ (n, m) ∈ g.edges := by
  simp [succs, List.mem_filter]

theorem mem_preds {g : Graph} {n p : String} :
    p ∈ preds g n ↔ p ∈ g.nodes ∧ (p, n) ∈ g.edges := by
  simp [preds, List.mem_filter]

/-- A reachable non-entry node has at least one predecessor in the graph. -/
theorem preds_ne_nil_of_reaches {g : Graph} {e n : String}
    (h : Reaches g e n) (hne : n ≠ e) : preds g n ≠ [] := by
  rcases Relation.ReflTransGen.cases_tail h with rfl | ⟨m, _, hstep⟩
  · exact absurd rfl hne
  · intro hnil
    have : m ∈ preds g n := mem_preds.mpr ⟨hstep.1, hstep.2.2⟩
    simp [hnil] at this

/-! ## Merge (src/cfg/merge.go) -/

/-- Entry reference established by `Copy` (`src/unnamed/part_003`): `Copy`
adds every node of the source to the destination, and `AddNode`
(src/cfg/graph.go) sets the destination entry when an added node carries the
entry flag. The flagged node is the one the source's entry field references,
provided it is still a member of the source's node set; a stale entry
reference (a removed node) is not a member and is not copied, leaving the
destination entry nil. -/
def copyEntry (src : Graph) : Option String :=
  match src.entry with
  | some e => if e ∈ src.nodes then some e else none
  | none => none

/-- `Graph.RemoveNode` (src/cfg/graph.go): removes the node and any edges
attached to it; the graph's entry field is not touched. -/
def removeNode (g : Graph) (n : String) : Graph :=
  { g with nodes := g.nodes.filter (fun x => x ≠ n),
           edges := g.edges.filter (fun e => e.1 ≠ n ∧ e.2 ≠ n) }

/-- Insertion into a Go map used as a set of node names. -/
def insertName (x : String) (xs : List String) : List String :=
  if x ∈ xs then xs else x :: xs

/-- State of the delete loop of `Merge`: the evolving destination graph and
the recorded external predecessors and successors of the deleted set. -/
structure MergeState where
  g : Graph
  ps : List String
  ss : List String

/-- One iteration of the delete loop of `Merge` (src/cfg/merge.go): record
the predecessors and successors of the deleted node that are not themselves
in the delete set, then remove the node. -/
def mergeStep (delNodes : List String) (st : MergeState) (delName : String) : MergeState :=
  let newPs := (preds st.g delName).filter (fun p => decide (p ∉ delNodes))
  let newSs := (succs st.g delName).filter (fun s => decide (s ∉ delNodes))
  { g := removeNode st.g delName
    ps := newPs.foldl (fun acc p => insertName p acc) st.ps
    ss := newSs.foldl (fun acc s => insertName s acc) st.ss }

/-- `cfg.Merge` (src/cfg/merge.go): copy the source, add the fresh node,
delete the nodes of the delete set while recording their external
predecessors and successors, then connect those to the new node. -/
def Merge (src : Graph) (delNodes : List String) (newName : String) : Graph :=
  let dst : Graph := { nodes := newName :: src.nodes, edges := src.edges,
                       entry := copyEntry src }
  let st := delNodes.foldl (mergeStep delNodes) { g := dst, ps := [], ss := [] }
  { st.g with
      edges := st.g.edges ++ st.ps.map (fun p => (p, newName))
                          ++ st.ss.map (fun s => (newName, s)) }

theorem mem_insertName {x y : String} {xs : List String} :
    x ∈ insertName y xs ↔ x = y ∨ x ∈ xs := by
  by_cases h : y ∈ xs
  · simp only [insertName, if_pos h]
    constructor
    · exact Or.inr
    · rintro (rfl | hx)
      · exact h
      · exact hx
  · simp [insertName, if_neg h]

theorem mem_foldl_insertName {x : String} {l acc : List String} :
    x ∈ l.foldl (fun a p => insertName p a) acc ↔ x ∈ l ∨ x ∈ acc := by
  induction l generalizing acc with
  | nil => simp
  | cons y ys ih =>
    simp only [List.foldl_cons, ih, mem_insertName, List.mem_cons]
    tauto

/-- Characterization of the state reached by the delete loop of `Merge`. -/
theorem mergeFold_char (src : Graph) (delNodes : List String) (newName : String)
    (hwfE : ∀ e ∈ src.edges, e.1 ∈ src.nodes ∧ e.2 ∈ src.nodes)
    (hnd : delNodes.Nodup) :
    ∀ todo done st,
      delNodes = done ++ todo →
      (∀ x, x ∈ st.g.nodes ↔ (x = newName ∨ x ∈ src.nodes) ∧ x ∉ done) →
      (∀ a b, (a, b) ∈ st.g.edges ↔ (a, b) ∈ src.edges ∧ a ∉ done ∧ b ∉ done) →
      (∀ p, p ∈ st.ps ↔ p ∉ delNodes ∧ ∃ s ∈ done, (p, s) ∈ src.edges) →
      (∀ q, q ∈ st.ss ↔ q ∉ delNodes ∧ ∃ s ∈ done, (s, q) ∈ src.edges) →
      st.g.entry = copyEntry src →
      (∀ x, x ∈ (todo.foldl (mergeStep delNodes) st).g.nodes ↔
          (x = newName ∨ x ∈ src.nodes) ∧ x ∉ delNodes) ∧
      (∀ a b, (a, b) ∈ (todo.foldl (mergeStep delNodes) st).g.edges ↔
          (a, b) ∈ src.edges ∧ a ∉ delNodes ∧ b ∉ delNodes) ∧
      (∀ p, p ∈ (todo.foldl (mergeStep delNodes) st).ps ↔
          p ∉ delNodes ∧ ∃ s ∈ delNodes, (p, s) ∈ src.edges) ∧
      (∀ q, q ∈ (todo.foldl (mergeStep delNodes) st).ss ↔
          q ∉ delNodes ∧ ∃ s ∈ delNodes, (s, q) ∈ src.edges) ∧
      (todo.foldl (mergeStep delNodes) st).g.entry = copyEntry src := by
  intro todo
  induction todo with
  | nil =>
    intro done st hsplit hn he hp hs hent
    simp only [List.append_nil] at hsplit
    subst hsplit
    exact ⟨hn, he, hp, hs, hent⟩
  | cons d rest ih =>
    intro done st hsplit hn he hp hs hent
    have hnd' : (done ++ d :: rest).Nodup := hsplit ▸ hnd
    rw [List.nodup_append] at hnd'
    have hd_done : d ∉ done := fun hmem => hnd'.2.2 hmem (List.mem_cons_self d rest)
    have hsub_done : ∀ x ∈ done, x ∈ delNodes := by
      intro x hx
      rw [hsplit]
      exact List.mem_append_left _ hx
    have hstep_g : (mergeStep delNodes st d).g = removeNode st.g d := rfl
    -- node characterization after the step
    have hn1 : ∀ x, x ∈ (mergeStep delNodes st d).g.nodes ↔
        (x = newName ∨ x ∈ src.nodes) ∧ x ∉ done ++ [d] := by
      intro x
      rw [hstep_g]
      simp only [removeNode, List.mem_filter, decide_eq_true_eq, hn x,
        List.mem_append, List.mem_singleton]
      tauto
    -- edge characterization after the step
    have he1 : ∀ a b, (a, b) ∈ (mergeStep delNodes st d).g.edges ↔
        (a, b) ∈ src.edges ∧ a ∉ done ++ [d] ∧ b ∉ done ++ [d] := by
      intro a b
      rw [hstep_g]
      simp only [removeNode, List.mem_filter, decide_eq_true_eq, he a b,
        List.mem_append, List.mem_singleton]
      tauto
    -- the newly recorded external predecessors of d
    have hnewPs : ∀ p, p ∈ (preds st.g d).filter (fun p => decide (p ∉ delNodes)) ↔
        (p, d) ∈ src.edges ∧ p ∉ delNodes := by
      intro p
      simp only [List.mem_filter, decide_eq_true_eq, mem_preds, hn p, he p d]
      constructor
      · rintro ⟨⟨-, hpd, -⟩, hpdel⟩
        exact ⟨hpd, hpdel⟩
      · rintro ⟨hpd, hpdel⟩
        exact ⟨⟨⟨Or.inr (hwfE _ hpd).1, fun hmem => hpdel (hsub_done _ hmem)⟩,
          hpd, fun hmem => hpdel (hsub_done _ hmem), hd_done⟩, hpdel⟩
    have hnewSs : ∀ q, q ∈ (succs st.g d).filter (fun s => decide (s ∉ delNodes)) ↔
        (d, q) ∈ src.edges ∧ q ∉ delNodes := by
      intro q
      simp only [List.mem_filter, decide_eq_true_eq, mem_succs, hn q, he d q]
      constructor
      · rintro ⟨⟨-, hdq, -⟩, hqdel⟩
        exact ⟨hdq, hqdel⟩
      · rintro ⟨hdq, hqdel⟩
        exact ⟨⟨⟨Or.inr (hwfE _ hdq).2, fun hmem => hqdel (hsub_done _ hmem)⟩,
          hdq, hd_done, fun hmem => hqdel (hsub_done _ hmem)⟩, hqdel⟩
    have hp1 : ∀ p, p ∈ (mergeStep delNodes st d).ps ↔
        p ∉ delNodes ∧ ∃ s ∈ done ++ [d], (p, s) ∈ src.edges := by
      intro p
      show p ∈ List.foldl (fun a p => insertName p a) st.ps _ ↔ _
      rw [mem_foldl_insertName, hnewPs p, hp p]
      simp only [List.mem_append, List.mem_singleton]
      constructor
      · rintro (⟨hpd, hpdel⟩ | ⟨hpdel, s, hsdone, hps⟩)
        · exact ⟨hpdel, d, Or.inr rfl, hpd⟩
        · exact ⟨hpdel, s, Or.inl hsdone, hps⟩
      · rintro ⟨hpdel, s, (hsdone | rfl), hps⟩
        · exact Or.inr ⟨hpdel, s, hsdone, hps⟩
        · exact Or.inl ⟨hps, hpdel⟩
    have hs1 : ∀ q, q ∈ (mergeStep delNodes st d).ss ↔
        q ∉ delNodes ∧ ∃ s ∈ done ++ [d], (s, q) ∈ src.edges := by
      intro q
      show q ∈ List.foldl (fun a s => insertName s a) st.ss _ ↔ _
      rw [mem_foldl_insertName, hnewSs q, hs q]
      simp only [List.mem_append, List.mem_singleton]
      constructor
      · rintro (⟨hdq, hqdel⟩ | ⟨hqdel, s, hsdone, hsq⟩)
        · exact ⟨hqdel, d, Or.inr rfl, hdq⟩
        · exact ⟨hqdel, s, Or.inl hsdone, hsq⟩
      · rintro ⟨hqdel, s, (hsdone | rfl), hsq⟩
        · exact Or.inr ⟨hqdel, s, hsdone, hsq⟩
        · exact Or.inl ⟨hsq, hqdel⟩
    have hent1 : (mergeStep delNodes st d).g.entry = copyEntry src := by
      rw [hstep_g]
      exact hent
    have hsplit1 : delNodes = (done ++ [d]) ++ rest := by
      rw [hsplit, List.append_assoc]
      rfl
    exact ih (done ++ [d]) (mergeStep delNodes st d) hsplit1 hn1 he1 hp1 hs1 hent1

/-- Characterization of the graph returned by `Merge`. -/
theorem merge_char (src : Graph) (delNodes : List String) (newName : String)
    (hwf : WF src) (hsub : ∀ d ∈ delNodes, d ∈ src.nodes)
    (hnd : delNodes.Nodup) (hfresh : newName ∉ src.nodes) :
    (∀ x, x ∈ (Merge src delNodes newName).nodes ↔
        (x = newName ∨ x ∈ src.nodes) ∧ x ∉ delNodes) ∧
    (∀ a b, (a, b) ∈ (Merge src delNodes newName).edges ↔
        ((a, b) ∈ src.edges ∧ a ∉ delNodes ∧ b ∉ delNodes) ∨
        (b = newName ∧ a ∉ delNodes ∧ ∃ s ∈ delNodes, (a, s) ∈ src.edges) ∨
        (a = newName ∧ b ∉ delNodes ∧ ∃ s ∈ delNodes, (s, b) ∈ src.edges)) ∧
    (Merge src delNodes newName).entry = copyEntry src := by
  have hbase := mergeFold_char src delNodes newName hwf.2 hnd delNodes []
    { g := { nodes := newName :: src.nodes, edges := src.edges,
             entry := copyEntry src }, ps := [], ss := [] }
    rfl
    (by intro x; simp [List.mem_cons])
    (by intro a b; simp)
    (by intro p; simp)
    (by intro q; simp)
    rfl
  obtain ⟨hn, he, hp, hs, hent⟩ := hbase
  have hnew_notdel : newName ∉ delNodes := fun hmem => hfresh (hsub _ hmem)
  refine ⟨hn, ?_, hent⟩
  intro a b
  show (a, b) ∈ _ ++ _ ++ _ ↔ _
  simp only [List.mem_append, List.mem_map]
  rw [he a b]
  constructor
  · rintro ((hsrc | ⟨p, hp', heq⟩) | ⟨s', hs', heq⟩)
    · exact Or.inl hsrc
    · rcases Prod.mk.injEq .. ▸ heq with ⟨h1, h2⟩
      obtain ⟨hpdel, w, hw, hwmem⟩ := (hp p).mp hp'
      exact Or.inr (Or.inl ⟨h2.symm, h1 ▸ hpdel, w, hw, h1 ▸ hwmem⟩)
    · rcases Prod.mk.injEq .. ▸ heq with ⟨h1, h2⟩
      obtain ⟨hqdel, w, hw, hwmem⟩ := (hs s').mp hs'
      exact Or.inr (Or.inr ⟨h1.symm, h2 ▸ hqdel, w, hw, h2 ▸ hwmem⟩)
  · rintro (hsrc | ⟨rfl, hadel, w, hw, hwmem⟩ | ⟨rfl, hbdel, w, hw, hwmem⟩)
    · exact Or.inl (Or.inl hsrc)
    · exact Or.inl (Or.inr ⟨a, (hp a).mpr ⟨hadel, w, hw, hwmem⟩, rfl⟩)
    · exact Or.inr ⟨b, (hs b).mpr ⟨hbdel, w, hw, hwmem⟩, rfl⟩

/-- C2: for every graph G, every set S of node names of G, and every fresh
name m, the graph returned by Merge(G, S, m) has node-name set
(nodes(G) minus S) union m; the predecessors of m are exactly the nodes p
not in S with an edge (p, s) in G for some s in S; the successors of m are
exactly the nodes q not in S with an edge (s, q) in G for some s in S; and
edges of G between two nodes both outside S are kept unchanged. -/
theorem C2_merge_correct (src : Graph) (delNodes : List String) (newName : String)
    (hwf : WF src) (hsub : ∀ d ∈ delNodes, d ∈ src.nodes)
    (hnd : delNodes.Nodup) (hfresh : newName ∉ src.nodes) :
    (∀ x, x ∈ (Merge src delNodes newName).nodes ↔
        (x ∈ src.nodes ∧ x ∉ delNodes) ∨ x = newName) ∧
    (∀ p, p ∈ preds (Merge src delNodes newName) newName ↔
        p ∉ delNodes ∧ ∃ s ∈ delNodes, (p, s) ∈ src.edges) ∧
    (∀ q, q ∈ succs (Merge src delNodes newName) newName ↔
        q ∉ delNodes ∧ ∃ s ∈ delNodes, (s, q) ∈ src.edges) ∧
    (∀ a b, a ∈ src.nodes → b ∈ src.nodes → a ∉ delNodes → b ∉ delNodes →
        ((a, b) ∈ (Merge src delNodes newName).edges ↔ (a, b) ∈ src.edges)) := by
  obtain ⟨hn, he, -⟩ := merge_char src delNodes newName hwf hsub hnd hfresh
  have hnew_notdel : newName ∉ delNodes := fun hmem => hfresh (hsub _ hmem)
  refine ⟨?_, ?_, ?_, ?_⟩
  · intro x
    rw [hn x]
    constructor
    · rintro ⟨rfl | hx, hdel⟩
      · exact Or.inr rfl
      · exact Or.inl ⟨hx, hdel⟩
    · rintro (⟨hx, hdel⟩ | rfl)
      · exact ⟨Or.inr hx, hdel⟩
      · exact ⟨Or.inl rfl, hnew_notdel⟩
  · intro p
    rw [mem_preds, he p newName, hn p]
    constructor
    · rintro ⟨-, (⟨hsrc, -, -⟩ | ⟨-, hpdel, w, hw, hwmem⟩ | ⟨rfl, -, w, hw, hwmem⟩)⟩
      · exact absurd (hwf.2 _ hsrc).2 hfresh
      · exact ⟨hpdel, w, hw, hwmem⟩
      · exact absurd (hwf.2 _ hwmem).2 hfresh
    · rintro ⟨hpdel, w, hw, hwmem⟩
      exact ⟨⟨Or.inr (hwf.2 _ hwmem).1, hpdel⟩,
        Or.inr (Or.inl ⟨rfl, hpdel, w, hw, hwmem⟩)⟩
  · intro q
    rw [mem_succs, he newName q, hn q]
    constructor
    · rintro ⟨-, (⟨hsrc, -, -⟩ | ⟨rfl, -, w, hw, hwmem⟩ | ⟨-, hqdel, w, hw, hwmem⟩)⟩
      · exact absurd (hwf.2 _ hsrc).1 hfresh
      · exact absurd (hwf.2 _ hwmem).1 hfresh
      · exact ⟨hqdel, w, hw, hwmem⟩
    · rintro ⟨hqdel, w, hw, hwmem⟩
      exact ⟨⟨Or.inr (hwf.2 _ hwmem).2, hqdel⟩,
        Or.inr (Or.inr ⟨rfl, hqdel, w, hw, hwmem⟩)⟩
  · intro a b ha hb hadel hbdel
    rw [he a b]
    constructor
    · rintro (⟨hsrc, -, -⟩ | ⟨rfl, -, -⟩ | ⟨rfl, -, -⟩)
      · exact hsrc
      · exact absurd hb hfresh
      · exact absurd ha hfresh
    · intro hsrc
      exact Or.inl ⟨hsrc, hadel, hbdel⟩

/-- Concrete graph for the C2 witness and the C3 counterexample: nodes a, b,
c with entry a and edges a to b, b to c, c to b. -/
def mergeDemoSrc : Graph :=
  { nodes := ["a", "b", "c"], edges := [("a", "b"), ("b", "c"), ("c", "b")],
    entry := some "a" }

theorem C2_merge_correct_witness :
    (WF mergeDemoSrc ∧ (∀ d ∈ ["b", "c"], d ∈ mergeDemoSrc.nodes) ∧
      (["b", "c"] : List String).Nodup ∧ "I1" ∉ mergeDemoSrc.nodes) ∧
    ((∀ x, x ∈ (Merge mergeDemoSrc ["b", "c"] "I1").nodes ↔
        (x ∈ mergeDemoSrc.nodes ∧ x ∉ ["b", "c"]) ∨ x = "I1") ∧
    (∀ p, p ∈ preds (Merge mergeDemoSrc ["b", "c"] "I1") "I1" ↔
        p ∉ ["b", "c"] ∧ ∃ s ∈ ["b", "c"], (p, s) ∈ mergeDemoSrc.edges) ∧
    (∀ q, q ∈ succs (Merge mergeDemoSrc ["b", "c"] "I1") "I1" ↔
        q ∉ ["b", "c"] ∧ ∃ s ∈ ["b", "c"], (s, q) ∈ mergeDemoSrc.edges) ∧
    (∀ a b, a ∈ mergeDemoSrc.nodes → b ∈ mergeDemoSrc.nodes →
        a ∉ ["b", "c"] → b ∉ ["b", "c"] →
        ((a, b) ∈ (Merge mergeDemoSrc ["b", "c"] "I1").edges ↔
          (a, b) ∈ mergeDemoSrc.edges))) :=
  ⟨⟨⟨by decide, by decide⟩, by decide, by decide, by decide⟩,
    C2_merge_correct mergeDemoSrc ["b", "c"] "I1" ⟨by decide, by decide⟩
      (by decide) (by decide) (by decide)⟩

/-- C3 counterexample: merging the delete set that contains the entry node a
of `mergeDemoSrc` into a fresh node M does not make M the entry of the
returned graph; the entry field still references the removed node a. -/
theorem C3_counterexample :
    mergeDemoSrc.entry = some "a" ∧ "a" ∈ ["a"] ∧
    (Merge mergeDemoSrc ["a"] "M").entry ≠ some "M" ∧
    (Merge mergeDemoSrc ["a"] "M").entry = some "a" ∧
    "a" ∉ (Merge mergeDemoSrc ["a"] "M").nodes := by
  refine ⟨rfl, by decide, by decide, by decide, by decide⟩

/-- C3 amended: Merge leaves the entry field unchanged. If the entry of G is
not in S, the returned graph has the same entry node (by name) and that node
is still a member; if the entry of G is in S, the entry field of the returned
graph still references the old (removed) entry node, which is no longer a
member, and the new node m does not become the entry. -/
theorem C3_merge_entry_amended (src : Graph) (delNodes : List String)
    (newName : String) (e : String)
    (hwf : WF src) (hsub : ∀ d ∈ delNodes, d ∈ src.nodes)
    (hnd : delNodes.Nodup) (hfresh : newName ∉ src.nodes)
    (hentry : src.entry = some e) (hmem : e ∈ src.nodes) :
    (Merge src delNodes newName).entry = some e ∧
    (e ∉ delNodes → e ∈ (Merge src delNodes newName).nodes) ∧
    (e ∈ delNodes → e ∉ (Merge src delNodes newName).nodes ∧ e ≠ newName) := by
  obtain ⟨hn, -, hent⟩ := merge_char src delNodes newName hwf hsub hnd hfresh
  refine ⟨?_, ?_, ?_⟩
  · rw [hent, copyEntry, hentry]
    simp [hmem]
  · intro hdel
    exact (hn e).mpr ⟨Or.inr hmem, hdel⟩
  · intro hdel
    constructor
    · intro hin
      exact ((hn e).mp hin).2 hdel
    · intro heq
      exact hfresh (heq ▸ hmem)

theorem C3_merge_entry_amended_witness :
    (WF mergeDemoSrc ∧ (∀ d ∈ ["a"], d ∈ mergeDemoSrc.nodes) ∧
      (["a"] : List String).Nodup ∧ "M" ∉ mergeDemoSrc.nodes ∧
      mergeDemoSrc.entry = some "a" ∧ "a" ∈ mergeDemoSrc.nodes) ∧
    ((Merge mergeDemoSrc ["a"] "M").entry = some "a" ∧
    ("a" ∉ ["a"] → "a" ∈ (Merge mergeDemoSrc ["a"] "M").nodes) ∧
    ("a" ∈ ["a"] → "a" ∉ (Merge mergeDemoSrc ["a"] "M").nodes ∧ "a" ≠ "M")) :=
  ⟨⟨⟨by decide, by decide⟩, by decide, by decide, by decide, rfl, by decide⟩,
    C3_merge_entry_amended mergeDemoSrc ["a"] "M" "a" ⟨by decide, by decide⟩
      (by decide) (by decide) (by decide) rfl (by decide)⟩

/-! ## Intervals as subgraph views (src/flow/interval.go) -/

/-- An interval I(h): the reference graph, the header node, and the set of
member node names (`flow.Interval` of src/flow/interval.go). Its `From`, `To`
and edge queries pass through to the underlying graph. -/
structure Interval where
  g : Graph
  head : String
  inodes : List String
deriving Repr, DecidableEq

/-! ## Dominators (external `gonum path.Dominators`; spec section 4.5 and
glossary) -/

/-- All simple paths from u to v in g that avoid the nodes of `visited`,
bounded by fuel (a simple path visits at most all nodes of the graph). -/
def pathsAux (g : Graph) : Nat → String → String → List String → List (List String)
  | 0, _, _, _ => []
  | fuel + 1, u, v, visited =>
    if u = v then [[v]]
    else
      ((succs g u).filter (fun w => decide (w ∉ visited))).flatMap
        (fun w => (pathsAux g fuel w v (u :: visited)).map (fun p => u :: p))

/-- All simple paths from u to v in g. -/
def simplePaths (g : Graph) (u v : String) : List (List String) :=
  pathsAux g (g.nodes.length + 1) u v []

/-- Modelled from the spec: d dominates n (from entry e) iff every path from
e to n passes through d (spec glossary); the implementation obtains this from
the external library call `path.Dominators`, whose code is not part of this
repository. Every path contains d iff every simple path does. -/
def dominatesB (g : Graph) (e d n : String) : Bool :=
  (simplePaths g e n).all (fun p => decide (d ∈ p))

/-- n is reachable from e iff some simple path joins them. -/
def reachableB (g : Graph) (e n : String) : Bool :=
  !(simplePaths g e n).isEmpty

/-- The strict dominators of n. -/
def strictDoms (g : Graph) (e n : String) : List String :=
  g.nodes.filter (fun d => decide (d ≠ n) && dominatesB g e d n)

/-- Modelled from the spec: the immediate dominator of n — the closest strict
dominator, the strict dominator that every other strict dominator dominates
(spec glossary). Mirrors `DominatorOf` of the external dominator tree, which
returns nil for the root and for unreachable nodes. -/
def idom (g : Graph) (e n : String) : Option String :=
  if n = e || !reachableB g e n then none
  else
    (strictDoms g e n).find?
      (fun d => (strictDoms g e n).all
        (fun d2 => decide (d2 = d) || dominatesB g e d2 d))

/-! ## Back edges and latch detection (src/cfa/cfa.go) -/

/-- The DFS numbers a node carries after `InitDFSOrder`: the Pre and RevPost
fields of `cfg.Node` read by loop structuring. -/
structure NodeNums where
  pre : Nat
  revPost : Nat
deriving Repr, DecidableEq

/-- `cfa.isBackEdge` (src/cfa/cfa.go:145-147): reports whether (pred, head)
is a back edge by the test head.Pre < pred.Pre. -/
def isBackEdge (pred head : NodeNums) : Bool :=
  decide (head.pre < pred.pre)

/-- `cfa.findLatch` (src/cfa/cfa.go:122-140): among the predecessors of the
interval header that lie inside the interval and form a back edge, pick the
one with the greatest RevPost. -/
def findLatch (I : Interval) (nums : String → NodeNums) : Option String :=
  (preds I.g I.head).foldl
    (fun latch p =>
      if p ∈ I.inodes ∧ isBackEdge (nums p) (nums I.head) = true then
        match latch with
        | Option.none => some p
        | some l => if (nums p).revPost > (nums l).revPost then some p else latch
      else latch)
    Option.none

/-- Graph with a single self-loop on its entry h, and the interval I(h)
containing h: the failing input of claim C8. -/
def selfLoopGraph : Graph :=
  { nodes := ["h"], edges := [("h", "h")], entry := some "h" }

/-- The interval of the self-loop graph. -/
def selfLoopInterval : Interval :=
  { g := selfLoopGraph, head := "h", inodes := ["h"] }

/-- C8: in latch detection, a predecessor p of the interval header h inside
the interval is recognised as a back-edge tail iff h.pre < p.pre — this part
matches the code — but the self-loop h to h is NOT recognised as a back edge
(h.pre < h.pre is false), contradicting the isBackEdge documentation, which
states that head == pred is a back edge: on the self-loop graph findLatch
returns no latch. -/
theorem C8_back_edge_detection :
    (∀ p h : NodeNums, isBackEdge p h = true ↔ h.pre < p.pre) ∧
    (∀ n : NodeNums, isBackEdge n n = false) ∧
    findLatch selfLoopInterval (fun _ => { pre := 0, revPost := 1 }) = Option.none := by
  refine ⟨?_, ?_, ?_⟩
  · intro p h
    simp [isBackEdge]
  · intro n
    simp [isBackEdge]
  · decide

/-! ## Entry validation of ParseBytes (src/cfg/graph.go:569-594) -/

/-- Outcome of `cfg.ParseBytes`: a successfully located entry, an error value
returned to the caller, or a panic that aborts the process. -/
inductive ParseOutcome where
  | ok (entryName : String)
  | errReturn (msg : String)
  | fatal (msg : String)
deriving Repr, DecidableEq

/-- The scan of `ParseBytes` over the unmarshalled nodes: remember the node
carrying the entry flag, panicking on a second one; after the loop, panic if
no entry was found. -/
def scanEntry : List (String × Bool) → Option String → ParseOutcome
  | [], Option.none => .fatal "unable to locate entry node"
  | [], some e => .ok e
  | (name, flag) :: rest, acc =>
    if flag then
      match acc with
      | some _ => .fatal "entry node already set in graph"
      | Option.none => scanEntry rest (some name)
    else scanEntry rest acc

/-- `cfg.ParseBytes`: an unmarshal failure is returned to the caller as an
error; otherwise the nodes are scanned for the entry flag. The unmarshalling
itself is external (gonum dot); its outcome is a parameter. -/
def parseBytes (unmarshalErr : Option String) (ns : List (String × Bool)) : ParseOutcome :=
  match unmarshalErr with
  | some msg => .errReturn msg
  | Option.none => scanEntry ns Option.none

/-- C9 counterexample: parsing a well-formed input with no node labelled
entry does not return a parse error to the caller — it panics, aborting the
process. -/
theorem C9_counterexample :
    parseBytes Option.none [("a", false), ("b", false)] =
      .fatal "unable to locate entry node" ∧
    ∀ msg, parseBytes Option.none [("a", false), ("b", false)] ≠ .errReturn msg := by
  refine ⟨rfl, ?_⟩
  intro msg
  simp [parseBytes, scanEntry]

/-- C9 amended: only unmarshal failures are returned to the caller as
errors; an input whose nodes carry no entry flag makes ParseBytes panic
(process-fatal), not return an error. -/
theorem C9_missing_entry_panics (ns : List (String × Bool))
    (hnone : ∀ p ∈ ns, p.2 = false) :
    parseBytes Option.none ns = .fatal "unable to locate entry node" := by
  show scanEntry ns Option.none = _
  induction ns with
  | nil => rfl
  | cons p rest ih =>
    obtain ⟨name, flag⟩ := p
    have hp : flag = false := hnone (name, flag) (List.mem_cons_self _ _)
    subst hp
    show scanEntry rest Option.none = _
    exact ih (fun q hq => hnone q (List.mem_cons_of_mem _ hq))

theorem C9_missing_entry_panics_witness :
    (∀ p ∈ [("a", false), ("b", false)], Prod.snd p = false) ∧
    parseBytes Option.none [("a", false), ("b", false)] =
      .fatal "unable to locate entry node" :=
  ⟨by decide, C9_missing_entry_panics [("a", false), ("b", false)] (by decide)⟩

/-! ## Loop structuring (src/cfa/cfa.go, `loop`) -/

/-- Association-list lookup for node annotations (a Go map or node field,
keyed by node name; the newest entry wins). -/
def alookup {A : Type} (m : List (String × A)) (x : String) : Option A :=
  match m.find? (fun p => p.1 == x) with
  | some p => some p.2
  | Option.none => Option.none

/-- Insertion sort step, descending by key. -/
def insertDescBy {A : Type} (key : A → Nat) (x : A) : List A → List A
  | [] => [x]
  | y :: ys => if key y ≤ key x then x :: y :: ys else y :: insertDescBy key x ys

/-- Sort descending by key. `cfg.SortByRevPost` (src/cfg/util.go:45-61) sorts
nodes by descending Post number, which is reverse postorder. -/
def sortDescBy {A : Type} (key : A → Nat) (l : List A) : List A :=
  l.foldr (insertDescBy key) []

theorem mem_insertDescBy {A : Type} {key : A → Nat} {x y : A} {l : List A} :
    y ∈ insertDescBy key x l ↔ y = x ∨ y ∈ l := by
  induction l with
  | nil => simp [insertDescBy]
  | cons z zs ih =>
    by_cases h : key z ≤ key x
    · simp [insertDescBy, if_pos h]
    · simp only [insertDescBy, if_neg h, List.mem_cons, ih]
      tauto

theorem mem_sortDescBy {A : Type} {key : A → Nat} {x : A} {l : List A} :
    x ∈ sortDescBy key l ↔ x ∈ l := by
  induction l with
  | nil => simp [sortDescBy]
  | cons z zs ih =>
    simp only [sortDescBy, List.foldr_cons, mem_insertDescBy, List.mem_cons]
    rw [show List.foldr (insertDescBy key) [] zs = sortDescBy key zs from rfl, ih]

/-- The loop type constants of `cfg` (LoopTypeNone, pre-test, post-test,
endless). -/
inductive LoopType where
  | notLoop
  | preTest
  | postTest
  | endless
deriving Repr, DecidableEq

/-- The node annotations produced by `cfa.loop`: the LoopHead assignments,
the header's loop type and follow node, and the set of loop member nodes. -/
structure LoopOut where
  loopHeadA : List (String × String)
  loopType : LoopType
  follow : Option String
  loopNodes : List String
deriving Repr, DecidableEq

/-- The body-marking pass of `cfa.loop` (src/cfa/cfa.go:161-177): walk the
interval members in reverse postorder; skip nodes at or before the header,
stop at the latch, and add a node when its immediate dominator is already a
member, recording its loop header if it has none. -/
def loopMark (idomF : String → Option String) (revPost : String → Nat)
    (head latch : String) :
    List String → List String → List (String × String) →
    List String × List (String × String)
  | [], ns, lh => (ns, lh)
  | n :: rest, ns, lh =>
    if revPost n ≤ revPost head then loopMark idomF revPost head latch rest ns lh
    else if revPost latch ≤ revPost n then (ns, lh)
    else
      let inBody := match idomF n with
        | some d => decide (d ∈ ns)
        | Option.none => false
      if inBody then
        loopMark idomF revPost head latch rest (n :: ns)
          (if alookup lh n = Option.none then (n, head) :: lh else lh)
      else loopMark idomF revPost head latch rest ns lh

/-- Pick the successor that lies outside the loop body, as the source indexes
succs 0 and 1 of a node with out-degree 2. -/
def pick2 (l ns : List String) : Option String :=
  match l with
  | [a, b] => some (if a ∈ ns then b else a)
  | _ => Option.none

/-- `cfa.loop` (src/cfa/cfa.go:149-230): mark the loop determined by (latch,
head) inside the interval, classify the loop by the out-degrees of latch and
header, and determine the loop follow. The endless case and the 2-way-header
2-way-latch case panic (Except.error). The successor queries of the interval
pass through to the underlying graph. -/
def loop (I : Interval) (latch : String) (post revPost : String → Nat)
    (lh0 : List (String × String)) : Except String LoopOut :=
  let head := I.head
  let idomF := fun n => idom I.g head n
  let mk := loopMark idomF revPost head latch (sortDescBy post I.inodes)
    [head] ((head, head) :: lh0)
  let ns := latch :: mk.1
  let lh2 := (latch, head) :: mk.2
  if (succs I.g latch).length = 2 then
    if (succs I.g head).length = 1 then
      match pick2 (succs I.g latch) ns with
      | some f => Except.ok
          { loopHeadA := lh2, loopType := .postTest, follow := some f,
            loopNodes := ns }
      | Option.none => Except.error "index out of range"
    else
      Except.error "loop type detection heuristic not yet implemented for 2-way header node, 2-way latch node loops"
  else
    if (succs I.g head).length = 2 then
      match pick2 (succs I.g head) ns with
      | some f => Except.ok
          { loopHeadA := lh2, loopType := .preTest, follow := some f,
            loopNodes := ns }
      | Option.none => Except.error "index out of range"
    else
      Except.error "determination of follow node for endless loops not yet implemented"

/-- A two-node cycle h to x to h: its interval is classified as an endless
loop (latch out-degree 1, header out-degree 1). -/
def endlessGraph : Graph :=
  { nodes := ["h", "x"], edges := [("h", "x"), ("x", "h")], entry := some "h" }

/-- The interval of the two-node cycle, headed by h. -/
def endlessInterval : Interval :=
  { g := endlessGraph, head := "h", inodes := ["h", "x"] }

/-- Post numbers of the two-node cycle after DFS from h. -/
def endlessPost : String → Nat := fun n => if n = "h" then 1 else 0

/-- RevPost numbers (node count minus post). -/
def endlessRevPost : String → Nat := fun n => if n = "h" then 1 else 2

/-- C7 counterexample: on an interval classified endless (latch out-degree 1
and header out-degree 1), loop structuring does not complete normally with a
null follow — it aborts with the unimplemented-endless-follow panic. -/
theorem C7_counterexample :
    (succs endlessInterval.g "x").length = 1 ∧
    (succs endlessInterval.g endlessInterval.head).length = 1 ∧
    loop endlessInterval "x" endlessPost endlessRevPost [] =
      Except.error "determination of follow node for endless loops not yet implemented" := by
  refine ⟨by decide, by decide, by rfl⟩

/-- C7 amended: for every interval whose loop is classified as endless
(latch out-degree 1 and header out-degree 1), loop structuring aborts with
the panic that follow determination for endless loops is not implemented; it
does not complete normally. -/
theorem C7_endless_loop_aborts (I : Interval) (latch : String)
    (post revPost : String → Nat) (lh0 : List (String × String))
    (hlatch : (succs I.g latch).length = 1)
    (hhead : (succs I.g I.head).length = 1) :
    loop I latch post revPost lh0 =
      Except.error "determination of follow node for endless loops not yet implemented" := by
  unfold loop
  simp [hlatch, hhead]

theorem C7_endless_loop_aborts_witness :
    ((succs endlessInterval.g "x").length = 1 ∧
      (succs endlessInterval.g endlessInterval.head).length = 1) ∧
    loop endlessInterval "x" endlessPost endlessRevPost [] =
      Except.error "determination of follow node for endless loops not yet implemented" :=
  ⟨⟨by decide, by decide⟩,
    C7_endless_loop_aborts endlessInterval "x" endlessPost endlessRevPost []
      (by decide) (by decide)⟩

/-! ## DFS numbering (src/cfg/util.go, `InitDFSOrder`) -/

/-- Numeric value of a digit run. -/
def chunkVal (cs : List Char) : Nat :=
  cs.foldl (fun a c => a * 10 + (c.toNat - 48)) 0

/-- Split a name into maximal digit runs (left) and non-digit runs (right). -/
def natChunks : List Char → List (Sum (List Char) (List Char))
  | [] => []
  | c :: cs =>
    match natChunks cs with
    | [] => [if c.isDigit then Sum.inl [c] else Sum.inr [c]]
    | Sum.inl run :: rest =>
      if c.isDigit then Sum.inl (c :: run) :: rest
      else Sum.inr [c] :: Sum.inl run :: rest
    | Sum.inr run :: rest =>
      if c.isDigit then Sum.inl [c] :: Sum.inr run :: rest
      else Sum.inr (c :: run) :: rest

/-- Lexicographic comparison of character runs. -/
def charListLess : List Char → List Char → Bool
  | [], [] => false
  | [], _ :: _ => true
  | _ :: _, [] => false
  | a :: as, b :: bs =>
    if a < b then true else if b < a then false else charListLess as bs

/-- Order between two chunks: digit runs compare numerically, digit runs
sort before non-digit runs, non-digit runs compare lexicographically. -/
def chunkLess : Sum (List Char) (List Char) → Sum (List Char) (List Char) → Bool
  | Sum.inl a, Sum.inl b => decide (chunkVal a < chunkVal b)
  | Sum.inl _, Sum.inr _ => true
  | Sum.inr _, Sum.inl _ => false
  | Sum.inr a, Sum.inr b => charListLess a b

/-- Chunk-sequence comparison. -/
def chunksLess : List (Sum (List Char) (List Char)) →
    List (Sum (List Char) (List Char)) → Bool
  | [], [] => false
  | [], _ :: _ => true
  | _ :: _, [] => false
  | a :: as, b :: bs =>
    if chunkLess a b then true
    else if chunkLess b a then false
    else chunksLess as bs

/-- Modelled from the spec: the natural-order comparison on DOT-style names
(treat maximal digit runs as integers) used by `sortByDOTID`; the
implementation calls the external natsort library, whose code is not part of
this repository. -/
def natLess (a b : String) : Bool :=
  chunksLess (natChunks a.data) (natChunks b.data)

/-- Insertion step for a sort by a boolean less comparator. -/
def insertByLess (lt : String → String → Bool) (x : String) :
    List String → List String
  | [] => [x]
  | y :: ys => if lt x y then x :: y :: ys else y :: insertByLess lt x ys

/-- `cfg.sortByDOTID` (src/cfg/util.go:65-84): sort node names in natural
order. -/
def sortByDOTID (ns : List String) : List String :=
  ns.foldr (insertByLess natLess) []

theorem mem_insertByLess {lt : String → String → Bool} {x y : String}
    {l : List String} : y ∈ insertByLess lt x l ↔ y = x ∨ y ∈ l := by
  induction l with
  | nil => simp [insertByLess]
  | cons z zs ih =>
    by_cases h : lt x z
    · simp [insertByLess, if_pos h]
    · simp only [insertByLess, if_neg h, List.mem_cons, ih]
      tauto

theorem mem_sortByDOTID {x : String} {ns : List String} :
    x ∈ sortByDOTID ns ↔ x ∈ ns := by
  induction ns with
  | nil => simp [sortByDOTID]
  | cons z zs ih =>
    simp only [sortByDOTID, List.foldr_cons, mem_insertByLess, List.mem_cons]
    rw [show List.foldr (insertByLess natLess) [] zs = sortByDOTID zs from rfl, ih]

/-- The mutable state of `InitDFSOrder` (src/cfg/util.go:16-43): the visited
set, the Pre and Post assignments, and the single counter i shared by the
Pre assignment and the Post assignment. -/
structure DfsSt where
  visited : List String
  preA : List (String × Nat)
  postA : List (String × Nat)
  counter : Nat
deriving Repr, DecidableEq

/-- The recursive `walk` of `InitDFSOrder`: assign Pre from the shared
counter, mark visited, recurse into unvisited successors in natural name
order, then assign Post from the counter and increment it. Fuel bounds the
recursion depth. -/
def walk (g : Graph) : Nat → String → DfsSt → Option DfsSt
  | 0, _, _ => Option.none
  | fuel + 1, n, s =>
    let s1 : DfsSt := { visited := n :: s.visited, preA := (n, s.counter) :: s.preA,
                        postA := s.postA, counter := s.counter }
    match (sortByDOTID (succs g n)).foldlM
        (fun st succ => if succ ∈ st.visited then some st else walk g fuel succ st)
        s1 with
    | Option.none => Option.none
    | some s2 => some { visited := s2.visited, preA := s2.preA,
                        postA := (n, s2.counter) :: s2.postA,
                        counter := s2.counter + 1 }

/-- `cfg.InitDFSOrder`: walk from the entry, then walk any node not yet
visited, in natural name order. -/
def initDFSOrder (g : Graph) : Option DfsSt :=
  match g.entry with
  | Option.none => Option.none
  | some e => do
    let s1 ← walk g (g.nodes.length + 1) e
      { visited := [], preA := [], postA := [], counter := 0 }
    (sortByDOTID g.nodes).foldlM
      (fun st n => if n ∈ st.visited then some st else walk g (g.nodes.length + 1) n st)
      s1

/-- The two-node chain a to b with entry a: the failing input of claim C5. -/
def chainGraph : Graph :=
  { nodes := ["a", "b"], edges := [("a", "b")], entry := some "a" }

/-- The DFS state `InitDFSOrder` computes on the chain: both nodes receive
Pre number 0, because Pre is assigned from the shared counter that is only
incremented when a node finishes. -/
def chainDfs : DfsSt :=
  { visited := ["b", "a"], preA := [("b", 0), ("a", 0)],
    postA := [("a", 1), ("b", 0)], counter := 2 }

/-- C5: on the chain a to b (all nodes reachable from the entry a), the
second visited node b does NOT receive pre number 1: both a and b receive
pre number 0, so the pre numbers are not assigned in visit order and are not
pairwise distinct. The post counter (finish order) and the natural-order
successor traversal behave as claimed. -/
theorem C5_pre_numbers_not_distinct :
    initDFSOrder chainGraph = some chainDfs ∧
    alookup chainDfs.preA "a" = some 0 ∧
    alookup chainDfs.preA "b" = some 0 ∧
    alookup chainDfs.postA "b" = some 0 ∧
    alookup chainDfs.postA "a" = some 1 := by
  refine ⟨by decide, by decide, by decide, by decide, by decide⟩

/-- How a DFS walk extends the numbering state: the newly visited nodes are
prepended to the visited list, the shared counter advances once per newly
finished node, the new Post entries assign to the newly visited nodes
exactly the counter values traversed, and every newly visited node ends with
all its successors visited. -/
def DfsExtend (g : Graph) (s s' : DfsSt) (newly : List String) : Prop :=
  s'.visited = newly ++ s.visited ∧
  newly.Nodup ∧
  (∀ x ∈ newly, x ∈ g.nodes ∧ x ∉ s.visited) ∧
  s'.counter = s.counter + newly.length ∧
  (∃ newPost : List (String × Nat),
    s'.postA = newPost ++ s.postA ∧
    (newPost.map Prod.fst).Perm newly ∧
    (newPost.map Prod.snd).Perm (List.range' s.counter newly.length)) ∧
  (∀ x ∈ newly, ∀ y ∈ succs g x, y ∈ s'.visited)

theorem dfsExtend_refl (g : Graph) (s : DfsSt) : DfsExtend g s s [] := by
  refine ⟨by simp, List.nodup_nil, by simp, by simp, ⟨[], by simp, by simp, by simp⟩,
    by simp⟩

theorem dfsExtend_trans {g : Graph} {s1 s2 s3 : DfsSt} {n1 n2 : List String}
    (h1 : DfsExtend g s1 s2 n1) (h2 : DfsExtend g s2 s3 n2) :
    DfsExtend g s1 s3 (n2 ++ n1) := by
  obtain ⟨hv1, hnd1, hm1, hc1, ⟨P1, hp1, hf1, hs1⟩, hcl1⟩ := h1
  obtain ⟨hv2, hnd2, hm2, hc2, ⟨P2, hp2, hf2, hs2⟩, hcl2⟩ := h2
  have hsub12 : s1.visited ⊆ s2.visited := by
    rw [hv1]; exact fun x hx => List.mem_append_right _ hx
  have hsub23 : s2.visited ⊆ s3.visited := by
    rw [hv2]; exact fun x hx => List.mem_append_right _ hx
  refine ⟨?_, ?_, ?_, ?_, ?_, ?_⟩
  · rw [hv2, hv1, List.append_assoc]
  · rw [List.nodup_append]
    refine ⟨hnd2, hnd1, ?_⟩
    intro x hx2 hx1
    exact (hm2 x hx2).2 (hv1 ▸ List.mem_append_left _ hx1)
  · intro x hx
    rcases List.mem_append.mp hx with hx2 | hx1
    · refine ⟨(hm2 x hx2).1, fun hmem => (hm2 x hx2).2 (hsub12 hmem)⟩
    · exact hm1 x hx1
  · rw [hc2, hc1, List.length_append, Nat.add_assoc,
      Nat.add_comm n1.length n2.length]
  · refine ⟨P2 ++ P1, ?_, ?_, ?_⟩
    · rw [hp2, hp1, List.append_assoc]
    · rw [List.map_append]
      exact hf2.append hf1
    · rw [List.map_append, List.length_append]
      refine ((hs2.append hs1).trans List.perm_append_comm).trans ?_
      have heq : List.range' s1.counter n1.length ++ List.range' s2.counter n2.length
          = List.range' s1.counter (n2.length + n1.length) := by
        have h := List.range'_append s1.counter n1.length n2.length 1
        simp only [one_mul] at h
        rw [hc1]
        exact h
      rw [heq]
  · intro x hx
    rcases List.mem_append.mp hx with hx2 | hx1
    · exact hcl2 x hx2
    · intro y hy
      exact hsub23 (hcl1 x hx1 y hy)

/-- Behaviour of the successor fold inside `walk`, assuming the behaviour of
the recursive walk calls at the same fuel. -/
theorem walkFold_spec (g : Graph) (fuel : Nat)
    (ih : ∀ n s s', walk g fuel n s = some s' → n ∈ g.nodes → n ∉ s.visited →
      ∃ newly, DfsExtend g s s' newly ∧ n ∈ newly) :
    ∀ (l : List String) (s s' : DfsSt), (∀ y ∈ l, y ∈ g.nodes) →
      List.foldlM (fun st succ => if succ ∈ st.visited then some st
        else walk g fuel succ st) s l = some s' →
      ∃ newly, DfsExtend g s s' newly ∧ ∀ y ∈ l, y ∈ s'.visited := by
  intro l
  induction l with
  | nil =>
    intro s s' _ h
    rw [List.foldlM_nil] at h
    obtain rfl : s = s' := by simpa using h
    exact ⟨[], dfsExtend_refl g s, by simp⟩
  | cons y ys ihl =>
    intro s s' hmem h
    rw [List.foldlM_cons] at h
    rcases Option.bind_eq_some.mp h with ⟨s1, hs1, hrest⟩
    have hysnodes : ∀ z ∈ ys, z ∈ g.nodes :=
      fun z hz => hmem z (List.mem_cons_of_mem _ hz)
    by_cases hy : y ∈ s.visited
    · rw [if_pos hy] at hs1
      obtain rfl : s = s1 := by injection hs1
      obtain ⟨M, hM, hys⟩ := ihl s s' hysnodes hrest
      refine ⟨M, hM, ?_⟩
      intro z hz
      rcases List.mem_cons.mp hz with rfl | hz'
      · rw [hM.1]
        exact List.mem_append_right _ hy
      · exact hys z hz'
    · rw [if_neg hy] at hs1
      obtain ⟨M1, hM1, hyM1⟩ := ih y s s1 hs1 (hmem y (List.mem_cons_self _ _)) hy
      obtain ⟨M2, hM2, hys⟩ := ihl s1 s' hysnodes hrest
      refine ⟨M2 ++ M1, dfsExtend_trans hM1 hM2, ?_⟩
      intro z hz
      rcases List.mem_cons.mp hz with rfl | hz'
      · rw [hM2.1]
        exact List.mem_append_right _ (hM1.1 ▸ List.mem_append_left _ hyM1)
      · exact hys z hz'

/-- Specification of `walk`: a successful walk from an unvisited node n
extends the state by a set of newly visited nodes containing n, advancing
the counter and assigning the traversed counter values as Post numbers, and
leaves every newly visited node with all successors visited. -/
theorem walk_spec (g : Graph) :
    ∀ fuel n s s', walk g fuel n s = some s' → n ∈ g.nodes → n ∉ s.visited →
      ∃ newly, DfsExtend g s s' newly ∧ n ∈ newly := by
  intro fuel
  induction fuel with
  | zero =>
    intro n s s' h
    exact absurd h (by simp [walk])
  | succ fuel ih =>
    intro n s s' h hn hnv
    rw [walk] at h
    rcases hfold : (sortByDOTID (succs g n)).foldlM
        (fun st succ => if succ ∈ st.visited then some st else walk g fuel succ st)
        { visited := n :: s.visited, preA := (n, s.counter) :: s.preA,
          postA := s.postA, counter := s.counter } with _ | s2
    · rw [hfold] at h
      exact absurd h (by simp)
    · rw [hfold] at h
      have hs' : s' = ⟨s2.visited, s2.preA, (n, s2.counter) :: s2.postA,
          s2.counter + 1⟩ := by
        injection h with h'
        exact h'.symm
      have hsuccnodes : ∀ y ∈ sortByDOTID (succs g n), y ∈ g.nodes := by
        intro y hy
        exact (mem_succs.mp (mem_sortByDOTID.mp hy)).1
      obtain ⟨M, hM, hsuccv⟩ := walkFold_spec g fuel ih _ _ _ hsuccnodes hfold
      obtain ⟨hv, hnd, hm, hc, ⟨P, hp, hPf, hPs⟩, hcl⟩ := hM
      have hnM : n ∉ M := by
        intro hmem
        exact (hm n hmem).2 (List.mem_cons_self _ _)
      refine ⟨M ++ [n], ⟨?_, ?_, ?_, ?_, ?_, ?_⟩, List.mem_append_right _ (by simp)⟩
      · rw [hs']
        show s2.visited = (M ++ [n]) ++ s.visited
        rw [hv]
        simp
      · rw [List.nodup_append]
        exact ⟨hnd, List.nodup_singleton n, by
          intro x hx hx1
          rcases List.mem_singleton.mp hx1 with rfl
          exact hnM hx⟩
      · intro x hx
        rcases List.mem_append.mp hx with hxM | hxn
        · have := hm x hxM
          exact ⟨this.1, fun hmem => this.2 (List.mem_cons_of_mem _ hmem)⟩
        · rcases List.mem_singleton.mp hxn with rfl
          exact ⟨hn, hnv⟩
      · rw [hs']
        show s2.counter + 1 = s.counter + (M ++ [n]).length
        rw [hc]
        simp [Nat.add_assoc]
      · refine ⟨(n, s2.counter) :: P, ?_, ?_, ?_⟩
        · rw [hs']
          show (n, s2.counter) :: s2.postA = ((n, s2.counter) :: P) ++ s.postA
          rw [hp]
          rfl
        · show (n :: P.map Prod.fst).Perm (M ++ [n])
          exact ((hPf.cons n).trans (List.perm_append_singleton n M).symm)
        · show (s2.counter :: P.map Prod.snd).Perm
            (List.range' s.counter (M ++ [n]).length)
          have hlen : (M ++ [n]).length = M.length + 1 := by simp
          rw [hlen, List.range'_concat]
          have hc2 : s2.counter = s.counter + M.length := hc
          refine ((hPs.cons s2.counter).trans ?_)
          rw [hc2]
          simp only [one_mul]
          exact (List.perm_append_singleton _ _).symm
      · intro x hx
        rcases List.mem_append.mp hx with hxM | hxn
        · intro y hy
          rw [hs']
          exact hcl x hxM y hy
        · rcases List.mem_singleton.mp hxn with rfl
          intro y hy
          rw [hs']
          exact hsuccv y (mem_sortByDOTID.mpr hy)

/-- The number of graph nodes not in the visited list. -/
def unvis (g : Graph) (v : List String) : Nat :=
  (g.nodes.toFinset \ v.toFinset).card

theorem unvis_cons {g : Graph} {v : List String} {n : String}
    (hn : n ∈ g.nodes) (hnv : n ∉ v) :
    unvis g (n :: v) = unvis g v - 1 ∧ 1 ≤ unvis g v := by
  have hmem : n ∈ g.nodes.toFinset \ v.toFinset := by
    rw [Finset.mem_sdiff]
    exact ⟨List.mem_toFinset.mpr hn, fun h => hnv (List.mem_toFinset.mp h)⟩
  constructor
  · simp only [unvis]
    rw [List.toFinset_cons, Finset.sdiff_insert, Finset.card_erase_of_mem hmem]
  · exact Finset.card_pos.mpr ⟨n, hmem⟩

theorem unvis_mono {g : Graph} {v w : List String} (h : v ⊆ w) :
    unvis g w ≤ unvis g v := by
  apply Finset.card_le_card
  apply Finset.sdiff_subset_sdiff (Finset.Subset.refl _)
  intro x hx
  exact List.mem_toFinset.mpr (h (List.mem_toFinset.mp hx))

/-- With fuel at least the number of unvisited nodes, `walk` does not run
out of fuel: the Go recursion terminates. -/
theorem walk_total (g : Graph) :
    ∀ fuel n s, n ∈ g.nodes → n ∉ s.visited → unvis g s.visited ≤ fuel →
      walk g fuel n s ≠ Option.none := by
  intro fuel
  induction fuel with
  | zero =>
    intro n s hn hnv hf
    have h1 := (unvis_cons (g := g) hn hnv).2
    omega
  | succ fuel ih =>
    intro n s hn hnv hf
    rw [walk]
    have hkey : ∀ (l : List String) (st : DfsSt), (∀ y ∈ l, y ∈ g.nodes) →
        unvis g st.visited ≤ fuel →
        List.foldlM (fun st succ => if succ ∈ st.visited then some st
          else walk g fuel succ st) st l ≠ Option.none := by
      intro l
      induction l with
      | nil =>
        intro st _ _
        simp [List.foldlM_nil]
      | cons y ys ihl =>
        intro st hmem hst
        rw [List.foldlM_cons]
        by_cases hy : y ∈ st.visited
        · rw [if_pos hy]
          simpa using ihl st (fun z hz => hmem z (List.mem_cons_of_mem _ hz)) hst
        · rw [if_neg hy]
          rcases hw : walk g fuel y st with _ | s1
          · exact absurd hw (ih y st (hmem y (List.mem_cons_self _ _)) hy hst)
          · obtain ⟨M, hM, -⟩ :=
              walk_spec g fuel y st s1 hw (hmem y (List.mem_cons_self _ _)) hy
            have hsub : st.visited ⊆ s1.visited := by
              rw [hM.1]
              exact fun x hx => List.mem_append_right _ hx
            have hle : unvis g s1.visited ≤ fuel :=
              le_trans (unvis_mono hsub) hst
            simpa using ihl s1 (fun z hz => hmem z (List.mem_cons_of_mem _ hz)) hle
    have hmark : unvis g (n :: s.visited) ≤ fuel := by
      obtain ⟨heq, hge⟩ := unvis_cons (g := g) hn hnv
      omega
    have hsuccnodes : ∀ y ∈ sortByDOTID (succs g n), y ∈ g.nodes := by
      intro y hy
      exact (mem_succs.mp (mem_sortByDOTID.mp hy)).1
    rcases hfold : (sortByDOTID (succs g n)).foldlM
        (fun st succ => if succ ∈ st.visited then some st else walk g fuel succ st)
        { visited := n :: s.visited, preA := (n, s.counter) :: s.preA,
          postA := s.postA, counter := s.counter } with _ | s2
    · exact absurd hfold (hkey _ _ hsuccnodes hmark)
    · rw [hfold]
      simp

/-- The secondary loop of `InitDFSOrder` does nothing when every node has
already been visited by the main walk. -/
theorem foldlM_noop (g : Graph) (fuel : Nat) :
    ∀ (l : List String) (s : DfsSt), (∀ y ∈ l, y ∈ s.visited) →
      List.foldlM (fun st n => if n ∈ st.visited then some st
        else walk g fuel n st) s l = some s := by
  intro l
  induction l with
  | nil =>
    intro s _
    rw [List.foldlM_nil]
    rfl
  | cons y ys ihl =>
    intro s hmem
    rw [List.foldlM_cons, if_pos (hmem y (List.mem_cons_self _ _))]
    simpa using ihl s (fun z hz => hmem z (List.mem_cons_of_mem _ hz))

/-- Specification of `InitDFSOrder` on a graph whose nodes are all reachable
from the entry: it terminates, visits exactly the graph's nodes, and the
Post assignments pair the nodes with a permutation of 0..N-1. -/
theorem initDFSOrder_spec (g : Graph) (e : String) (hwf : WF g)
    (hentry : g.entry = some e) (he : e ∈ g.nodes)
    (hreach : ∀ n ∈ g.nodes, Reaches g e n) :
    ∃ st, initDFSOrder g = some st ∧
      st.visited.Perm g.nodes ∧
      (st.postA.map Prod.fst).Perm g.nodes ∧
      (st.postA.map Prod.snd).Perm (List.range g.nodes.length) := by
  have hnd := hwf.1
  have hunvis0 : unvis g ([] : List String) ≤ g.nodes.length + 1 := by
    rw [unvis, List.toFinset_nil, Finset.sdiff_empty,
      List.toFinset_card_of_nodup hnd]
    omega
  have hW := walk_total g (g.nodes.length + 1) e ⟨[], [], [], 0⟩ he (by simp) hunvis0
  rcases hw : walk g (g.nodes.length + 1) e ⟨[], [], [], 0⟩ with _ | s1
  · exact absurd hw hW
  obtain ⟨M, hM, heM⟩ := walk_spec g _ e _ s1 hw he (by simp)
  obtain ⟨hv, hndM, hmM, hc, ⟨P, hp, hPf, hPs⟩, hcl⟩ := hM
  have hvisited : s1.visited = M := by
    rw [hv]
    simp
  have hcoverR : ∀ x, Reaches g e x → x ∈ s1.visited := by
    intro x hr
    induction hr with
    | refl =>
      rw [hvisited]
      exact heM
    | tail hab hstep ihr =>
      rename_i b c
      have hbM : b ∈ M := hvisited ▸ ihr
      exact hcl b hbM c (mem_succs.mpr ⟨hstep.2.1, hstep.2.2⟩)
  have hcover : ∀ x ∈ g.nodes, x ∈ s1.visited :=
    fun x hx => hcoverR x (hreach x hx)
  have hMperm : M.Perm g.nodes := by
    refine List.Subperm.antisymm ?_ ?_
    · exact List.subperm_of_subset hndM (fun x hx => (hmM x hx).1)
    · exact List.subperm_of_subset hnd (fun x hx => hvisited ▸ hcover x hx)
  have hfold2 := foldlM_noop g (g.nodes.length + 1) (sortByDOTID g.nodes) s1
    (fun y hy => hcover y (mem_sortByDOTID.mp hy))
  refine ⟨s1, ?_, ?_, ?_, ?_⟩
  · simp only [initDFSOrder, hentry, hw]
    simpa using hfold2
  · rw [hvisited]
    exact hMperm
  · have : s1.postA = P := by
      rw [hp]
      simp
    rw [this]
    exact hPf.trans hMperm
  · have hpa : s1.postA = P := by
      rw [hp]
      simp
    have hlenM : M.length = g.nodes.length := hMperm.length_eq
    rw [hpa, List.range_eq_range']
    have := hPs
    rw [hlenM] at this
    exact this

/-- `cfg.SortByRevPost` on Post-numbered nodes: sort descending by Post. -/
def sortByRevPost (l : List (String × Nat)) : List (String × Nat) :=
  sortDescBy Prod.snd l

theorem insertDescBy_perm {A : Type} {key : A → Nat} (x : A) (l : List A) :
    (insertDescBy key x l).Perm (x :: l) := by
  induction l with
  | nil => exact List.Perm.refl _
  | cons y ys ih =>
    by_cases h : key y ≤ key x
    · rw [insertDescBy, if_pos h]
    · rw [insertDescBy, if_neg h]
      exact (ih.cons y).trans (List.Perm.swap x y ys)

theorem sortDescBy_perm {A : Type} (key : A → Nat) (l : List A) :
    (sortDescBy key l).Perm l := by
  induction l with
  | nil => exact List.Perm.refl _
  | cons y ys ih =>
    exact (insertDescBy_perm y _).trans (ih.cons y)

theorem insertDescBy_sorted {A : Type} {key : A → Nat} {x : A} {l : List A}
    (h : l.Pairwise (fun a b => key b ≤ key a)) :
    (insertDescBy key x l).Pairwise (fun a b => key b ≤ key a) := by
  induction l with
  | nil => simp [insertDescBy]
  | cons y ys ih =>
    rcases List.pairwise_cons.mp h with ⟨hy, hys⟩
    by_cases hxy : key y ≤ key x
    · rw [insertDescBy, if_pos hxy]
      refine List.pairwise_cons.mpr ⟨?_, h⟩
      intro b hb
      rcases List.mem_cons.mp hb with rfl | hb'
      · exact hxy
      · exact le_trans (hy b hb') hxy
    · rw [insertDescBy, if_neg hxy]
      refine List.pairwise_cons.mpr ⟨?_, ih hys⟩
      intro b hb
      rcases mem_insertDescBy.mp hb with rfl | hb'
      · exact le_of_not_le hxy
      · exact hy b hb'

theorem sortDescBy_sorted {A : Type} (key : A → Nat) (l : List A) :
    (sortDescBy key l).Pairwise (fun a b => key b ≤ key a) := by
  induction l with
  | nil => simp [sortDescBy]
  | cons y ys ih => exact insertDescBy_sorted ih

theorem pairwise_strict_of_nodup :
    ∀ l : List (String × Nat), l.Pairwise (fun a b => b.2 ≤ a.2) →
      (l.map Prod.snd).Nodup → l.Pairwise (fun a b => b.2 < a.2) := by
  intro l
  induction l with
  | nil =>
    intro _ _
    exact List.Pairwise.nil
  | cons a t ih =>
    intro hp hn
    rcases List.pairwise_cons.mp hp with ⟨ha, ht⟩
    rw [List.map_cons, List.nodup_cons] at hn
    refine List.pairwise_cons.mpr ⟨?_, ih ht hn.2⟩
    intro b hb
    have hle := ha b hb
    have hne : a.2 ≠ b.2 := fun hh => hn.1 (hh ▸ List.mem_map_of_mem Prod.snd hb)
    exact lt_of_le_of_ne hle (fun hh => hne hh.symm)

/-- C10: after InitDFSOrder on a graph with N nodes all reachable from the
entry, the assigned Post values are pairwise distinct and are exactly
0..N-1; consequently SortByRevPost orders the nodes by a strict total order
(strictly descending Post). -/
theorem C10_post_order (g : Graph) (e : String) (hwf : WF g)
    (hentry : g.entry = some e) (he : e ∈ g.nodes)
    (hreach : ∀ n ∈ g.nodes, Reaches g e n) :
    ∃ st, initDFSOrder g = some st ∧
      (st.postA.map Prod.fst).Perm g.nodes ∧
      (st.postA.map Prod.snd).Perm (List.range g.nodes.length) ∧
      (st.postA.map Prod.snd).Nodup ∧
      (sortByRevPost st.postA).Perm st.postA ∧
      (sortByRevPost st.postA).Pairwise (fun a b => b.2 < a.2) := by
  obtain ⟨st, hinit, hvp, hfst, hsnd⟩ := initDFSOrder_spec g e hwf hentry he hreach
  have hndsnd : (st.postA.map Prod.snd).Nodup :=
    (List.nodup_range _).perm hsnd.symm
  have hsp : (sortByRevPost st.postA).Perm st.postA := sortDescBy_perm _ _
  refine ⟨st, hinit, hfst, hsnd, hndsnd, hsp, ?_⟩
  have hsorted := sortDescBy_sorted Prod.snd st.postA
  have hnd2 : ((sortByRevPost st.postA).map Prod.snd).Nodup :=
    hndsnd.perm (hsp.map Prod.snd).symm
  exact pairwise_strict_of_nodup _ hsorted hnd2

theorem C10_post_order_witness :
    (WF chainGraph ∧ chainGraph.entry = some "a" ∧ "a" ∈ chainGraph.nodes ∧
      (∀ n ∈ chainGraph.nodes, Reaches chainGraph "a" n)) ∧
    (∃ st, initDFSOrder chainGraph = some st ∧
      (st.postA.map Prod.fst).Perm chainGraph.nodes ∧
      (st.postA.map Prod.snd).Perm (List.range chainGraph.nodes.length) ∧
      (st.postA.map Prod.snd).Nodup ∧
      (sortByRevPost st.postA).Perm st.postA ∧
      (sortByRevPost st.postA).Pairwise (fun a b => b.2 < a.2)) := by
  have hreach : ∀ n ∈ chainGraph.nodes, Reaches chainGraph "a" n := by
    intro n hn
    rcases List.mem_cons.mp hn with rfl | hn2
    · exact Relation.ReflTransGen.refl
    · rcases List.mem_cons.mp hn2 with rfl | hn3
      · exact Relation.ReflTransGen.single ⟨by decide, by decide, by decide⟩
      · simp at hn3
  exact ⟨⟨⟨by decide, by decide⟩, rfl, by decide, hreach⟩,
    C10_post_order chainGraph "a" ⟨by decide, by decide⟩ rfl (by decide) hreach⟩

/-! ## 2-way conditional structuring (src/cfa/cfa.go, `struct2Way`) -/

/-- Insertion sort step, ascending by key. -/
def insertAscBy {A : Type} (key : A → Nat) (x : A) : List A → List A
  | [] => [x]
  | y :: ys => if key x ≤ key y then x :: y :: ys else y :: insertAscBy key x ys

/-- Modelled from the spec: `cfg.SortByPost` (called by struct2Way; its
definition is not under src/) sorts nodes in ascending-post order. -/
def sortAscBy {A : Type} (key : A → Nat) (l : List A) : List A :=
  l.foldr (insertAscBy key) []

theorem insertAscBy_perm {A : Type} {key : A → Nat} (x : A) (l : List A) :
    (insertAscBy key x l).Perm (x :: l) := by
  induction l with
  | nil => exact List.Perm.refl _
  | cons y ys ih =>
    by_cases h : key x ≤ key y
    · rw [insertAscBy, if_pos h]
    · rw [insertAscBy, if_neg h]
      exact (ih.cons y).trans (List.Perm.swap x y ys)

theorem sortAscBy_perm {A : Type} (key : A → Nat) (l : List A) :
    (sortAscBy key l).Perm l := by
  induction l with
  | nil => exact List.Perm.refl _
  | cons y ys ih =>
    exact (insertAscBy_perm y _).trans (ih.cons y)

/-- `cfa.find2WayFollow` (src/cfa/cfa.go:283-297): the candidate follow of a
2-way node m is the node with greatest RevPost among the nodes whose
immediate dominator is m and whose in-degree is at least 2. -/
def find2WayFollow (g : Graph) (e : String) (m : String)
    (post revPost : String → Nat) : Option String :=
  (sortDescBy post g.nodes).foldl
    (fun n i =>
      if idom g e i = some m ∧ (preds g i).length ≥ 2 then
        match n with
        | Option.none => some i
        | some cur => if revPost i > revPost cur then some i else n
      else n)
    Option.none

/-- The state of `struct2Way`: the if-follow assignments and the unresolved
set. -/
structure S2W where
  follow : List (String × String)
  unresolved : List String
deriving Repr, DecidableEq

/-- One iteration of `struct2Way` (src/cfa/cfa.go:248-278) over node m: skip
nodes that are not 2-way, loop headers and latches; on a successful follow
search assign the follow to m and to every unresolved node and clear the
unresolved set; otherwise add m to the unresolved set. -/
def s2wStep (g : Graph) (e : String) (post revPost : String → Nat)
    (loopHeadA : List (String × String)) (latches : List String)
    (st : S2W) (m : String) : S2W :=
  if (succs g m).length ≠ 2 then st
  else if alookup loopHeadA m = some m then st
  else if m ∈ latches then st
  else
    match find2WayFollow g e m post revPost with
    | some n =>
      { follow := ((m, n) :: st.unresolved.map (fun x => (x, n))) ++ st.follow,
        unresolved := [] }
    | Option.none => { follow := st.follow, unresolved := m :: st.unresolved }

/-- `cfa.struct2Way`: iterate all nodes in ascending post order (descending
reverse postorder), maintaining the unresolved set. The loop-header and
latch annotations are those the nodes carry when the pass runs. -/
def struct2Way (g : Graph) (e : String) (post revPost : String → Nat)
    (loopHeadA : List (String × String)) (latches : List String) : S2W :=
  (sortAscBy post g.nodes).foldl (s2wStep g e post revPost loopHeadA latches)
    { follow := [], unresolved := [] }

theorem alookup_nil {A : Type} (x : String) : alookup ([] : List (String × A)) x = Option.none := rfl

theorem alookup_cons {A : Type} (k : String) (v : A) (F : List (String × A))
    (x : String) :
    alookup ((k, v) :: F) x = if x = k then some v else alookup F x := by
  by_cases h : x = k
  · subst h
    simp [alookup, List.find?_cons]
  · rw [if_neg h]
    have : (k == x) = false := by
      simp [Ne.symm h]
    simp [alookup, List.find?_cons, this]

/-- Lookup after the follow-assignment of a successful step: m and every
unresolved node map to the new follow n, everything else is unchanged. -/
theorem alookup_s2w_update (m n : String) (unres : List String)
    (F : List (String × String)) (x : String) :
    alookup (((m, n) :: unres.map (fun x => (x, n))) ++ F) x =
      if x = m ∨ x ∈ unres then some n else alookup F x := by
  have haux : ∀ us : List String,
      alookup ((us.map (fun x => (x, n))) ++ F) x =
        if x ∈ us then some n else alookup F x := by
    intro us
    induction us with
    | nil => simp
    | cons u us ih =>
      rw [List.map_cons, List.cons_append, alookup_cons]
      by_cases h : x = u
      · subst h
        simp
      · rw [if_neg h, ih]
        by_cases h2 : x ∈ us
        · rw [if_pos h2, if_pos (List.mem_cons_of_mem _ h2)]
        · rw [if_neg h2, if_neg (by
            intro hc
            rcases List.mem_cons.mp hc with hc1 | hc2
            · exact h hc1
            · exact h2 hc2)]
  rw [List.cons_append, alookup_cons]
  by_cases h : x = m
  · subst h
    simp
  · rw [if_neg h, haux]
    by_cases h2 : x ∈ unres
    · rw [if_pos h2, if_pos (Or.inr h2)]
    · rw [if_neg h2, if_neg (by
        intro hc
        rcases hc with hc1 | hc2
        · exact h hc1
        · exact h2 hc2)]

/-- The follow returned by `find2WayFollow` for m has immediate dominator m
and in-degree at least 2 (it passed the search filter). -/
theorem find2WayFollow_spec (g : Graph) (e m : String)
    (post revPost : String → Nat) :
    ∀ n, find2WayFollow g e m post revPost = some n →
      idom g e n = some m ∧ (preds g n).length ≥ 2 := by
  rw [find2WayFollow]
  generalize sortDescBy post g.nodes = l
  have haux : ∀ (l : List String) (acc : Option String),
      (∀ c, acc = some c → idom g e c = some m ∧ (preds g c).length ≥ 2) →
      ∀ n, l.foldl
        (fun n i =>
          if idom g e i = some m ∧ (preds g i).length ≥ 2 then
            match n with
            | Option.none => some i
            | some cur => if revPost i > revPost cur then some i else n
          else n) acc = some n →
        idom g e n = some m ∧ (preds g n).length ≥ 2 := by
    intro l
    induction l with
    | nil =>
      intro acc hacc n h
      rw [List.foldl_nil] at h
      exact hacc n h
    | cons i rest ih =>
      intro acc hacc n h
      rw [List.foldl_cons] at h
      refine ih _ ?_ n h
      by_cases hcond : idom g e i = some m ∧ (preds g i).length ≥ 2
      · rw [if_pos hcond]
        rcases acc with _ | cur
        · intro c hc
          injection hc with hc'
          exact hc' ▸ hcond
        · intro c hc
          have hc2 : (if revPost i > revPost cur then some i else some cur) = some c := hc
          by_cases hgt : revPost i > revPost cur
          · rw [if_pos hgt] at hc2
            injection hc2 with hc'
            exact hc' ▸ hcond
          · rw [if_neg hgt] at hc2
            exact hacc c hc2
      · rw [if_neg hcond]
        exact hacc
  exact haux l Option.none (by intro c hc; cases hc)

/-- Invariant of the `struct2Way` fold: every assigned follow has in-degree
at least 2 and is the direct follow of the node that immediately dominates
it; unresolved and not-yet-visited nodes carry no follow. -/
theorem s2wFold_inv (g : Graph) (e : String) (post revPost : String → Nat)
    (loopHeadA : List (String × String)) (latches : List String) :
    ∀ (todo : List String) (st : S2W),
      todo.Nodup →
      (∀ x ∈ st.unresolved, alookup st.follow x = Option.none) →
      (∀ x ∈ todo, alookup st.follow x = Option.none ∧ x ∉ st.unresolved) →
      (∀ x f, alookup st.follow x = some f → (preds g f).length ≥ 2 ∧
        ∃ m, idom g e f = some m ∧ alookup st.follow m = some f) →
      ∀ x f, alookup (todo.foldl (s2wStep g e post revPost loopHeadA latches) st).follow x
          = some f →
        (preds g f).length ≥ 2 ∧
        ∃ m, idom g e f = some m ∧
          alookup (todo.foldl (s2wStep g e post revPost loopHeadA latches) st).follow m
            = some f := by
  intro todo
  induction todo with
  | nil =>
    intro st _ _ _ hc
    exact hc
  | cons m rest ih =>
    intro st hnd hunres htodo hc
    rw [List.foldl_cons]
    have hndrest : rest.Nodup := (List.nodup_cons.mp hnd).2
    have hmrest : m ∉ rest := (List.nodup_cons.mp hnd).1
    by_cases h1 : (succs g m).length ≠ 2
    · rw [show s2wStep g e post revPost loopHeadA latches st m = st by
        rw [s2wStep, if_pos h1]]
      exact ih st hndrest hunres
        (fun x hx => htodo x (List.mem_cons_of_mem _ hx)) hc
    · by_cases h2 : alookup loopHeadA m = some m
      · rw [show s2wStep g e post revPost loopHeadA latches st m = st by
          rw [s2wStep, if_neg h1, if_pos h2]]
        exact ih st hndrest hunres
          (fun x hx => htodo x (List.mem_cons_of_mem _ hx)) hc
      · by_cases h3 : m ∈ latches
        · rw [show s2wStep g e post revPost loopHeadA latches st m = st by
            rw [s2wStep, if_neg h1, if_neg h2, if_pos h3]]
          exact ih st hndrest hunres
            (fun x hx => htodo x (List.mem_cons_of_mem _ hx)) hc
        · rcases hf : find2WayFollow g e m post revPost with _ | n
          · rw [show s2wStep g e post revPost loopHeadA latches st m =
                ⟨st.follow, m :: st.unresolved⟩ by
              rw [s2wStep, if_neg h1, if_neg h2, if_neg h3, hf]]
            refine ih _ hndrest ?_ ?_ hc
            · intro x hx
              rcases List.mem_cons.mp hx with rfl | hx'
              · exact (htodo x (List.mem_cons_self _ _)).1
              · exact hunres x hx'
            · intro x hx
              refine ⟨(htodo x (List.mem_cons_of_mem _ hx)).1, ?_⟩
              intro hmem
              rcases List.mem_cons.mp hmem with rfl | hx'
              · exact hmrest hx
              · exact (htodo x (List.mem_cons_of_mem _ hx)).2 hx'
          · rw [show s2wStep g e post revPost loopHeadA latches st m =
                ⟨((m, n) :: st.unresolved.map (fun x => (x, n))) ++ st.follow, []⟩ by
              rw [s2wStep, if_neg h1, if_neg h2, if_neg h3, hf]]
            obtain ⟨hidom, hdeg⟩ := find2WayFollow_spec g e m post revPost n hf
            have hmnone : alookup st.follow m = Option.none :=
              (htodo m (List.mem_cons_self _ _)).1
            refine ih _ hndrest (by intro x hx; cases hx) ?_ ?_
            · intro x hx
              constructor
              · rw [alookup_s2w_update, if_neg]
                · exact (htodo x (List.mem_cons_of_mem _ hx)).1
                · rintro (rfl | hxu)
                  · exact hmrest hx
                  · exact (htodo x (List.mem_cons_of_mem _ hx)).2 hxu
              · intro hmem
                cases hmem
            · intro x f hxf
              rw [alookup_s2w_update] at hxf
              by_cases hcase : x = m ∨ x ∈ st.unresolved
              · rw [if_pos hcase] at hxf
                injection hxf with hxf'
                subst hxf'
                refine ⟨hdeg, m, hidom, ?_⟩
                rw [alookup_s2w_update, if_pos (Or.inl rfl)]
              · rw [if_neg hcase] at hxf
                obtain ⟨hp, m', hid, hm'⟩ := hc x f hxf
                refine ⟨hp, m', hid, ?_⟩
                rw [alookup_s2w_update, if_neg]
                · exact hm'
                · rintro (rfl | hm'u)
                  · rw [hmnone] at hm'
                    cases hm'
                  · rw [hunres m' hm'u] at hm'
                    cases hm'

/-- C6 amended: after 2-way structuring, every node annotated with an
if-follow f has indeg(f) at least 2, and f is the direct follow of the node
m that immediately dominates f (m itself is annotated with f); nodes that
received f through the unresolved-set propagation are annotated with the
same f even though their own immediate-dominator relation does not hold. -/
theorem C6_two_way_follow_amended (g : Graph) (e : String)
    (post revPost : String → Nat) (loopHeadA : List (String × String))
    (latches : List String) (hnd : g.nodes.Nodup) :
    ∀ x f,
      alookup (struct2Way g e post revPost loopHeadA latches).follow x = some f →
      (preds g f).length ≥ 2 ∧
      ∃ m, idom g e f = some m ∧
        alookup (struct2Way g e post revPost loopHeadA latches).follow m = some f := by
  have hndsorted : (sortAscBy post g.nodes).Nodup :=
    hnd.perm (sortAscBy_perm post g.nodes).symm
  exact s2wFold_inv g e post revPost loopHeadA latches (sortAscBy post g.nodes)
    { follow := [], unresolved := [] } hndsorted
    (by intro x hx; cases hx)
    (by intro x hx; exact ⟨rfl, by intro h; cases h⟩)
    (by intro x f h; cases h)

/-- The counterexample graph for claim C6: a 2-way entry a with arms b and
c; b is a 2-way whose arms d and e reconverge at c, which has in-degree 3
and immediate dominator a. -/
def c6graph : Graph :=
  { nodes := ["a", "b", "c", "d", "e"],
    edges := [("a", "b"), ("a", "c"), ("b", "d"), ("b", "e"),
              ("d", "c"), ("e", "c")],
    entry := some "a" }

/-- Post numbers of the counterexample graph, from `initDFSOrder`. -/
def c6post : String → Nat := fun n =>
  match initDFSOrder c6graph with
  | some st => (alookup st.postA n).getD 0
  | Option.none => 0

/-- RevPost numbers: node count minus post (spec section 4.1; matches the
repository's TestInitDFSOrder, which checks len(nodes) - post). -/
def c6revPost : String → Nat := fun n => c6graph.nodes.length - c6post n

/-- The 2-way structuring result on the counterexample graph, with no loop
annotations (Structure runs struct2Way with structLoops disabled). -/
def c6s2w : S2W := struct2Way c6graph "a" c6post c6revPost [] []

/-- C6 counterexample: node b fails its own follow search (no node with
immediate dominator b has in-degree 2), is placed in the unresolved set, and
later receives the follow c of node a through the propagation — but the
immediate dominator of c is a, not b, so the claimed invariant
immDom(ifFollow(m)) = m fails at m = b. -/
theorem C6_counterexample :
    alookup c6s2w.follow "b" = some "c" ∧
    idom c6graph "a" "c" = some "a" ∧
    ("a" : String) ≠ "b" := by
  refine ⟨by decide, by decide, by decide⟩

theorem C6_two_way_follow_amended_witness :
    c6graph.nodes.Nodup ∧
    ((preds c6graph "c").length ≥ 2 ∧
      ∃ m, idom c6graph "a" "c" = some m ∧
        alookup (struct2Way c6graph "a" c6post c6revPost [] []).follow m = some "c") :=
  ⟨by decide,
    C6_two_way_follow_amended c6graph "a" c6post c6revPost [] [] (by decide)
      "b" "c" (by decide)⟩

/-! ## Interval analysis (src/flow/interval.go, `Intervals`) -/

/-- Step 2.2 scan (`flow.find2_2`, src/flow/interval.go:58-84): find the
first node in scan order that is not the entry, not already in I, and whose
predecessors all lie in I. A scanned node without predecessors panics
(outer `Option.none`); a completed scan with no find is `some Option.none`. -/
def find2_2 (g : Graph) (e : String) (I : List String) :
    List String → Option (Option String)
  | [] => some Option.none
  | n :: rest =>
    if n = e then find2_2 g e I rest
    else if n ∈ I then find2_2 g e I rest
    else if preds g n = [] then Option.none
    else if (preds g n).all (fun p => decide (p ∈ I)) then some (some n)
    else find2_2 g e I rest

/-- The repeat-until-no-change loop around find2_2 (steps 2.2-2.3 of
`Intervals`): grow the interval. -/
def growI (g : Graph) (e : String) (scan : List String) :
    Nat → List String → Option (List String)
  | 0, _ => Option.none
  | fuel + 1, I =>
    match find2_2 g e I scan with
    | Option.none => Option.none
    | some Option.none => some I
    | some (some n) => growI g e scan fuel (I ++ [n])

/-- Step 3 scan (`flow.find3`, src/flow/interval.go:86-112): find a node not
in H, not in I, with at least one predecessor in I; panic on a scanned
predecessor-less node. -/
def find3 (g : Graph) (I H : List String) :
    List String → Option (Option String)
  | [] => some Option.none
  | n :: rest =>
    if n ∈ H then find3 g I H rest
    else if n ∈ I then find3 g I H rest
    else if preds g n = [] then Option.none
    else if (preds g n).any (fun p => decide (p ∈ I)) then some (some n)
    else find3 g I H rest

/-- The push loop of step 3: add header candidates to the queue (the queue's
push deduplicates; find3 already skips nodes present in H). -/
def pushLoop (g : Graph) (scan I : List String) :
    Nat → List String → Option (List String)
  | 0, _ => Option.none
  | fuel + 1, H =>
    match find3 g I H scan with
    | Option.none => Option.none
    | some Option.none => some H
    | some (some n) => pushLoop g scan I fuel (H ++ [n])

/-- The outer loop of `flow.Intervals`: process queue entries from index i
(the queue never discards popped entries; pop advances the index), building
one interval per header. -/
def intervalsRun (g : Graph) (e : String) (scan : List String) :
    Nat → List String → Nat → List Interval → Option (List Interval)
  | 0, _, _, _ => Option.none
  | fuel + 1, H, i, acc =>
    if h : i < H.length then
      match growI g e scan (g.nodes.length + 1) [H.get ⟨i, h⟩] with
      | Option.none => Option.none
      | some I =>
        match pushLoop g scan I (g.nodes.length + 1) H with
        | Option.none => Option.none
        | some H' =>
          intervalsRun g e scan fuel H' (i + 1)
            (acc ++ [{ g := g, head := H.get ⟨i, h⟩, inodes := I }])
    else some acc

/-- `flow.Intervals` (src/flow/interval.go:18-56): queue the entry, then for
each popped header grow its interval (scanning candidates in reverse
postorder) and push new header candidates. -/
def Intervals (g : Graph) (e : String) (post : String → Nat) :
    Option (List Interval) :=
  intervalsRun g e (sortDescBy post g.nodes) (g.nodes.length + 2) [e] 0 []

theorem find2_2_some (g : Graph) (e : String) (I : List String) :
    ∀ scan n, find2_2 g e I scan = some (some n) →
      n ∈ scan ∧ n ≠ e ∧ n ∉ I ∧ preds g n ≠ [] ∧ ∀ p ∈ preds g n, p ∈ I := by
  intro scan
  induction scan with
  | nil =>
    intro n h
    rw [find2_2] at h
    injection h with h'
    cases h'
  | cons m rest ih =>
    intro n h
    rw [find2_2] at h
    by_cases h1 : m = e
    · rw [if_pos h1] at h
      obtain ⟨hs, h2, h3, h4, h5⟩ := ih n h
      exact ⟨List.mem_cons_of_mem _ hs, h2, h3, h4, h5⟩
    · rw [if_neg h1] at h
      by_cases h2 : m ∈ I
      · rw [if_pos h2] at h
        obtain ⟨hs, h2', h3, h4, h5⟩ := ih n h
        exact ⟨List.mem_cons_of_mem _ hs, h2', h3, h4, h5⟩
      · rw [if_neg h2] at h
        by_cases h3 : preds g m = []
        · rw [if_pos h3] at h
          cases h
        · rw [if_neg h3] at h
          by_cases h4 : (preds g m).all (fun p => decide (p ∈ I)) = true
          · rw [if_pos h4] at h
            injection h with h'
            injection h' with h''
            subst h''
            refine ⟨List.mem_cons_self _ _, h1, h2, h3, ?_⟩
            intro p hp
            have := List.all_eq_true.mp h4 p hp
            exact of_decide_eq_true this
          · rw [if_neg h4] at h
            obtain ⟨hs, h2', h3', h4', h5⟩ := ih n h
            exact ⟨List.mem_cons_of_mem _ hs, h2', h3', h4', h5⟩

theorem find2_2_no_panic (g : Graph) (e : String) (I : List String) :
    ∀ scan, (∀ n ∈ scan, n ≠ e → preds g n ≠ []) →
      find2_2 g e I scan ≠ Option.none := by
  intro scan
  induction scan with
  | nil =>
    intro _
    rw [find2_2]
    simp
  | cons m rest ih =>
    intro hp
    have hrest : ∀ n ∈ rest, n ≠ e → preds g n ≠ [] :=
      fun n hn => hp n (List.mem_cons_of_mem _ hn)
    rw [find2_2]
    by_cases h1 : m = e
    · rw [if_pos h1]
      exact ih hrest
    · rw [if_neg h1]
      by_cases h2 : m ∈ I
      · rw [if_pos h2]
        exact ih hrest
      · rw [if_neg h2]
        rw [if_neg (hp m (List.mem_cons_self _ _) h1)]
        by_cases h4 : (preds g m).all (fun p => decide (p ∈ I)) = true
        · rw [if_pos h4]
          simp
        · rw [if_neg h4]
          exact ih hrest

theorem find3_some (g : Graph) (I H : List String) :
    ∀ scan n, find3 g I H scan = some (some n) →
      n ∈ scan ∧ n ∉ H ∧ n ∉ I ∧ ∃ p ∈ preds g n, p ∈ I := by
  intro scan
  induction scan with
  | nil =>
    intro n h
    rw [find3] at h
    injection h with h'
    cases h'
  | cons m rest ih =>
    intro n h
    rw [find3] at h
    by_cases h1 : m ∈ H
    · rw [if_pos h1] at h
      obtain ⟨hs, ha, hb, hc⟩ := ih n h
      exact ⟨List.mem_cons_of_mem _ hs, ha, hb, hc⟩
    · rw [if_neg h1] at h
      by_cases h2 : m ∈ I
      · rw [if_pos h2] at h
        obtain ⟨hs, ha, hb, hc⟩ := ih n h
        exact ⟨List.mem_cons_of_mem _ hs, ha, hb, hc⟩
      · rw [if_neg h2] at h
        by_cases h3 : preds g m = []
        · rw [if_pos h3] at h
          cases h
        · rw [if_neg h3] at h
          by_cases h4 : (preds g m).any (fun p => decide (p ∈ I)) = true
          · rw [if_pos h4] at h
            injection h with h'
            injection h' with h''
            subst h''
            obtain ⟨p, hp, hpI⟩ := List.any_eq_true.mp h4
            exact ⟨List.mem_cons_self _ _, h1, h2, p, hp, of_decide_eq_true hpI⟩
          · rw [if_neg h4] at h
            obtain ⟨hs, ha, hb, hc⟩ := ih n h
            exact ⟨List.mem_cons_of_mem _ hs, ha, hb, hc⟩

theorem find3_none (g : Graph) (I H : List String) :
    ∀ scan, find3 g I H scan = some Option.none →
      ∀ n ∈ scan, n ∈ H ∨ n ∈ I ∨ ∀ p ∈ preds g n, p ∉ I := by
  intro scan
  induction scan with
  | nil =>
    intro _ n hn
    cases hn
  | cons m rest ih =>
    intro h n hn
    rw [find3] at h
    by_cases h1 : m ∈ H
    · rw [if_pos h1] at h
      rcases List.mem_cons.mp hn with rfl | hn'
      · exact Or.inl h1
      · exact ih h n hn'
    · rw [if_neg h1] at h
      by_cases h2 : m ∈ I
      · rw [if_pos h2] at h
        rcases List.mem_cons.mp hn with rfl | hn'
        · exact Or.inr (Or.inl h2)
        · exact ih h n hn'
      · rw [if_neg h2] at h
        by_cases h3 : preds g m = []
        · rw [if_pos h3] at h
          cases h
        · rw [if_neg h3] at h
          by_cases h4 : (preds g m).any (fun p => decide (p ∈ I)) = true
          · rw [if_pos h4] at h
            injection h with h'
            cases h'
          · rw [if_neg h4] at h
            rcases List.mem_cons.mp hn with rfl | hn'
            · refine Or.inr (Or.inr ?_)
              intro p hp hpI
              exact h4 (List.any_eq_true.mpr ⟨p, hp, decide_eq_true hpI⟩)
            · exact ih h n hn'

theorem find3_no_panic (g : Graph) (I H : List String) :
    ∀ scan, (∀ n ∈ scan, n ∈ H ∨ preds g n ≠ []) →
      find3 g I H scan ≠ Option.none := by
  intro scan
  induction scan with
  | nil =>
    intro _
    rw [find3]
    simp
  | cons m rest ih =>
    intro hp
    have hrest : ∀ n ∈ rest, n ∈ H ∨ preds g n ≠ [] :=
      fun n hn => hp n (List.mem_cons_of_mem _ hn)
    rw [find3]
    by_cases h1 : m ∈ H
    · rw [if_pos h1]
      exact ih hrest
    · rw [if_neg h1]
      by_cases h2 : m ∈ I
      · rw [if_pos h2]
        exact ih hrest
      · rw [if_neg h2]
        have hmp : preds g m ≠ [] := by
          rcases hp m (List.mem_cons_self _ _) with hH | hne
          · exact absurd hH h1
          · exact hne
        rw [if_neg hmp]
        by_cases h4 : (preds g m).any (fun p => decide (p ∈ I)) = true
        · rw [if_pos h4]
          simp
        · rw [if_neg h4]
          exact ih hrest

theorem growI_total (g : Graph) (e : String) (scan : List String)
    (hscan : ∀ x ∈ scan, x ∈ g.nodes)
    (hscanp : ∀ n ∈ scan, n ≠ e → preds g n ≠ []) :
    ∀ fuel I, I.Nodup → (∀ x ∈ I, x ∈ g.nodes) →
      g.nodes.length + 1 ≤ fuel + I.length →
      growI g e scan fuel I ≠ Option.none := by
  intro fuel
  induction fuel with
  | zero =>
    intro I hnd hsub hlen
    have hle : I.length ≤ g.nodes.length :=
      (List.subperm_of_subset hnd hsub).length_le
    omega
  | succ fuel ih =>
    intro I hnd hsub hlen
    rw [growI]
    rcases hf : find2_2 g e I scan with _ | oo
    · exact absurd hf (find2_2_no_panic g e I scan hscanp)
    · rcases oo with _ | n
      · simp
      · obtain ⟨hs, hne, hnI, -, -⟩ := find2_2_some g e I scan n hf
        refine ih (I ++ [n]) ?_ ?_ ?_
        · rw [List.nodup_append]
          exact ⟨hnd, List.nodup_singleton n, by
            intro x hx hx1
            rcases List.mem_singleton.mp hx1 with rfl
            exact hnI hx⟩
        · intro x hx
          rcases List.mem_append.mp hx with hx' | hx'
          · exact hsub x hx'
          · rcases List.mem_singleton.mp hx' with rfl
            exact hscan _ hs
        · rw [List.length_append]
          simp only [List.length_singleton]
          omega

theorem growI_spec (g : Graph) (e : String) (scan : List String)
    (P H : List String) (hd : String)
    (hctx1 : ∀ x ∈ P, x ∈ H ∨ (x ≠ e ∧ ∀ p ∈ preds g x, p ∈ P))
    (hctx2 : ∀ x ∈ H, x = e ∨ ∃ p ∈ preds g x, p ∈ P)
    (hscan : ∀ x ∈ scan, x ∈ g.nodes) :
    ∀ fuel I0 I, growI g e scan fuel I0 = some I →
      I0.Nodup → (∀ x ∈ I0, x ∈ g.nodes) →
      (∀ x ∈ I0, x ∉ P ∧ (x ∈ H → x = hd)) →
      ∃ added, I = I0 ++ added ∧ I.Nodup ∧
        (∀ x ∈ I, x ∈ g.nodes) ∧
        (∀ x ∈ I, x ∉ P ∧ (x ∈ H → x = hd)) ∧
        (∀ x ∈ added, x ≠ e ∧ preds g x ≠ [] ∧ ∀ p ∈ preds g x, p ∈ I) := by
  intro fuel
  induction fuel with
  | zero =>
    intro I0 I h
    rw [growI] at h
    cases h
  | succ fuel ih =>
    intro I0 I h hnd hsub hdisj
    rw [growI] at h
    rcases hf : find2_2 g e I0 scan with _ | oo
    · rw [hf] at h
      cases h
    · rw [hf] at h
      rcases oo with _ | n
      · injection h with h'
        subst h'
        exact ⟨[], by simp, hnd, hsub, hdisj, by simp⟩
      · obtain ⟨hs, hne, hnI, hpne, hpsub⟩ := find2_2_some g e I0 scan n hf
        -- the new node is neither placed nor a queued header
        have hnH : n ∉ H := by
          intro hmem
          rcases hctx2 n hmem with rfl | ⟨p, hp, hpP⟩
          · exact hne rfl
          · exact (hdisj p (hpsub p hp)).1 hpP
        have hnP : n ∉ P := by
          intro hmem
          rcases hctx1 n hmem with hH | ⟨-, hpP⟩
          · exact hnH hH
          · obtain ⟨p, hp⟩ := List.exists_mem_of_ne_nil _ hpne
            exact (hdisj p (hpsub p hp)).1 (hpP p hp)
        have hnd' : (I0 ++ [n]).Nodup := by
          rw [List.nodup_append]
          exact ⟨hnd, List.nodup_singleton n, by
            intro x hx hx1
            rcases List.mem_singleton.mp hx1 with rfl
            exact hnI hx⟩
        have hsub' : ∀ x ∈ I0 ++ [n], x ∈ g.nodes := by
          intro x hx
          rcases List.mem_append.mp hx with hx' | hx'
          · exact hsub x hx'
          · rcases List.mem_singleton.mp hx' with rfl
            exact hscan _ hs
        have hdisj' : ∀ x ∈ I0 ++ [n], x ∉ P ∧ (x ∈ H → x = hd) := by
          intro x hx
          rcases List.mem_append.mp hx with hx' | hx'
          · exact hdisj x hx'
          · rcases List.mem_singleton.mp hx' with rfl
            exact ⟨hnP, fun hmem => absurd hmem hnH⟩
        obtain ⟨added', heq, hndI, hsubI, hdisjI, haddI⟩ :=
          ih (I0 ++ [n]) I h hnd' hsub' hdisj'
        refine ⟨n :: added', ?_, hndI, hsubI, hdisjI, ?_⟩
        · rw [heq, List.append_assoc]
          rfl
        · intro x hx
          rcases List.mem_cons.mp hx with rfl | hx'
          · refine ⟨hne, hpne, ?_⟩
            intro p hp
            rw [heq]
            exact List.mem_append_left _ (List.mem_append_left _ (hpsub p hp))
          · exact haddI x hx'

theorem pushLoop_total (g : Graph) (e : String) (scan I : List String)
    (hscan : ∀ x ∈ scan, x ∈ g.nodes)
    (hscanp : ∀ n ∈ scan, n ≠ e → preds g n ≠ []) :
    ∀ fuel H, H.Nodup → (∀ x ∈ H, x ∈ g.nodes) → e ∈ H →
      g.nodes.length + 1 ≤ fuel + H.length →
      pushLoop g scan I fuel H ≠ Option.none := by
  intro fuel
  induction fuel with
  | zero =>
    intro H hnd hsub hin hlen
    have hle : H.length ≤ g.nodes.length :=
      (List.subperm_of_subset hnd hsub).length_le
    omega
  | succ fuel ih =>
    intro H hnd hsub hin hlen
    rw [pushLoop]
    rcases hf : find3 g I H scan with _ | oo
    · refine absurd hf (find3_no_panic g I H scan ?_)
      intro n hn
      by_cases hne : n = e
      · exact Or.inl (hne ▸ hin)
      · exact Or.inr (hscanp n hn hne)
    · rcases oo with _ | n
      · simp
      · obtain ⟨hs, hnH, -, -⟩ := find3_some g I H scan n hf
        refine ih (H ++ [n]) ?_ ?_ ?_ ?_
        · rw [List.nodup_append]
          exact ⟨hnd, List.nodup_singleton n, by
            intro x hx hx1
            rcases List.mem_singleton.mp hx1 with rfl
            exact hnH hx⟩
        · intro x hx
          rcases List.mem_append.mp hx with hx' | hx'
          · exact hsub x hx'
          · rcases List.mem_singleton.mp hx' with rfl
            exact hscan _ hs
        · exact List.mem_append_left _ hin
        · rw [List.length_append]
          simp only [List.length_singleton]
          omega

theorem pushLoop_spec (g : Graph) (scan I : List String)
    (hscan : ∀ x ∈ scan, x ∈ g.nodes) :
    ∀ fuel H0 H', pushLoop g scan I fuel H0 = some H' → H0.Nodup →
      ∃ added, H' = H0 ++ added ∧ H'.Nodup ∧
        (∀ x ∈ added, x ∈ g.nodes ∧ x ∉ I ∧ x ∉ H0 ∧ ∃ p ∈ preds g x, p ∈ I) ∧
        (∀ n ∈ scan, n ∈ H' ∨ n ∈ I ∨ ∀ p ∈ preds g n, p ∉ I) := by
  intro fuel
  induction fuel with
  | zero =>
    intro H0 H' h
    rw [pushLoop] at h
    cases h
  | succ fuel ih =>
    intro H0 H' h hnd
    rw [pushLoop] at h
    rcases hf : find3 g I H0 scan with _ | oo
    · rw [hf] at h
      cases h
    · rw [hf] at h
      rcases oo with _ | n
      · injection h with h'
        subst h'
        exact ⟨[], by simp, hnd, by simp, find3_none g I H0 scan hf⟩
      · obtain ⟨hs, hnH, hnI, hex⟩ := find3_some g I H0 scan n hf
        have hnd' : (H0 ++ [n]).Nodup := by
          rw [List.nodup_append]
          exact ⟨hnd, List.nodup_singleton n, by
            intro x hx hx1
            rcases List.mem_singleton.mp hx1 with rfl
            exact hnH hx⟩
        obtain ⟨added', heq, hndH, hadd', hclo⟩ := ih (H0 ++ [n]) H' h hnd'
        refine ⟨n :: added', ?_, hndH, ?_, hclo⟩
        · rw [heq, List.append_assoc]
          rfl
        · intro x hx
          rcases List.mem_cons.mp hx with rfl | hx'
          · exact ⟨hscan _ hs, hnI, hnH, hex⟩
          · obtain ⟨ha, hb, hc, hdd⟩ := hadd' x hx'
            exact ⟨ha, hb, fun hmem => hc (List.mem_append_left _ hmem), hdd⟩

/-- Main invariant proof for the outer loop of `Intervals`: under the stated
queue and placement invariants, the loop terminates and the interval node
sets, concatenated, are a permutation of the graph's nodes. -/
theorem intervalsRun_spec (g : Graph) (e : String) (scan : List String)
    (hwf : WF g) (hreach : ∀ n ∈ g.nodes, Reaches g e n)
    (hscan : ∀ x, x ∈ scan ↔ x ∈ g.nodes) :
    ∀ fuel (H : List String) (i : Nat) (acc : List Interval),
      H.Nodup → (∀ x ∈ H, x ∈ g.nodes) → e ∈ H → i ≤ H.length →
      g.nodes.length + 1 ≤ fuel + i →
      ((acc.map Interval.inodes).flatten).Nodup →
      (∀ x ∈ (acc.map Interval.inodes).flatten, x ∈ g.nodes) →
      (∀ x ∈ H.take i, x ∈ (acc.map Interval.inodes).flatten) →
      (∀ x ∈ H.drop i, x ∉ (acc.map Interval.inodes).flatten) →
      (∀ x ∈ (acc.map Interval.inodes).flatten,
        x ∈ H ∨ (x ≠ e ∧ ∀ p ∈ preds g x, p ∈ (acc.map Interval.inodes).flatten)) →
      (∀ x ∈ H, x = e ∨ ∃ p ∈ preds g x, p ∈ (acc.map Interval.inodes).flatten) →
      (∀ I ∈ acc, ∀ n ∈ g.nodes, n ∈ H ∨ n ∈ I.inodes ∨
        ∀ p ∈ preds g n, p ∉ I.inodes) →
      ∃ is, intervalsRun g e scan fuel H i acc = some is ∧
        ((is.map Interval.inodes).flatten).Perm g.nodes := by
  have hscan1 : ∀ x ∈ scan, x ∈ g.nodes := fun x hx => (hscan x).mp hx
  have hscanp : ∀ n ∈ scan, n ≠ e → preds g n ≠ [] := by
    intro n hn hne
    exact preds_ne_nil_of_reaches (hreach n ((hscan n).mp hn)) hne
  intro fuel
  induction fuel with
  | zero =>
    intro H i acc hndH hsubH heH hiH hfuel
    have hHle : H.length ≤ g.nodes.length :=
      (List.subperm_of_subset hndH hsubH).length_le
    omega
  | succ fuel ih =>
    intro H i acc hndH hsubH heH hiH hfuel hndP hsubP htake hdrop hctx1 hctx2 hclo
    rw [intervalsRun]
    by_cases hi : i < H.length
    · rw [dif_pos hi]
      have hdH : H.get ⟨i, hi⟩ ∈ H := H.get_mem i hi
      have hdnodes : H.get ⟨i, hi⟩ ∈ g.nodes := hsubH _ hdH
      have hdropc : H.drop i = H.get ⟨i, hi⟩ :: H.drop (i + 1) :=
        List.drop_eq_getElem_cons hi
      have hdP : H.get ⟨i, hi⟩ ∉ (acc.map Interval.inodes).flatten := by
        refine hdrop _ ?_
        rw [hdropc]
        exact List.mem_cons_self _ _
      have hdnotd : H.get ⟨i, hi⟩ ∉ H.drop (i + 1) := by
        have hnddrop : (H.drop i).Nodup := (List.drop_sublist i H).nodup hndH
        rw [hdropc] at hnddrop
        exact (List.nodup_cons.mp hnddrop).1
      rcases hg : growI g e scan (g.nodes.length + 1) [H.get ⟨i, hi⟩] with _ | I
      · refine absurd hg (growI_total g e scan hscan1 hscanp _ _
          (List.nodup_singleton _) ?_ ?_)
        · intro x hx
          rcases List.mem_singleton.mp hx with rfl
          exact hdnodes
        · simp
      show ∃ is, (match pushLoop g scan I (g.nodes.length + 1) H with
          | Option.none => Option.none
          | some H' => intervalsRun g e scan fuel H' (i + 1)
              (acc ++ [(⟨g, H.get ⟨i, hi⟩, I⟩ : Interval)])) = some is ∧
        ((is.map Interval.inodes).flatten).Perm g.nodes
      obtain ⟨added, hIeq, hndI, hsubI, hdisjI, haddI⟩ :=
        growI_spec g e scan ((acc.map Interval.inodes).flatten) H (H.get ⟨i, hi⟩)
          hctx1 hctx2 hscan1 _ _ I hg (List.nodup_singleton _)
          (by
            intro x hx
            rcases List.mem_singleton.mp hx with rfl
            exact hdnodes)
          (by
            intro x hx
            rcases List.mem_singleton.mp hx with rfl
            exact ⟨hdP, fun _ => rfl⟩)
      have hhdI : H.get ⟨i, hi⟩ ∈ I := by
        rw [hIeq]
        exact List.mem_append_left _ (List.mem_singleton_self _)
      rcases hp : pushLoop g scan I (g.nodes.length + 1) H with _ | H2
      · exact absurd hp (pushLoop_total g e scan I hscan1 hscanp _ H hndH hsubH heH
          (by omega))
      obtain ⟨newH, hH2eq, hndH2, hnewH, hclose⟩ :=
        pushLoop_spec g scan I hscan1 _ H H2 hp hndH
      have hplaced' :
          (((acc ++ [(⟨g, H.get ⟨i, hi⟩, I⟩ : Interval)]).map
            Interval.inodes).flatten) = (acc.map Interval.inodes).flatten ++ I := by
        rw [List.map_append, List.flatten_append]
        simp
      have hPdisjI : ∀ x ∈ (acc.map Interval.inodes).flatten, x ∉ I :=
        fun x hxP hxI => (hdisjI x hxI).1 hxP
      have hIH : ∀ x ∈ I, x ∈ H → x = H.get ⟨i, hi⟩ :=
        fun x hx => (hdisjI x hx).2
      refine ih H2 (i + 1) (acc ++ [(⟨g, H.get ⟨i, hi⟩, I⟩ : Interval)])
        hndH2 ?_ ?_ ?_ ?_ ?_ ?_ ?_ ?_ ?_ ?_ ?_
      · -- membership in nodes
        intro x hx
        rw [hH2eq] at hx
        rcases List.mem_append.mp hx with hx' | hx'
        · exact hsubH x hx'
        · exact (hnewH x hx').1
      · rw [hH2eq]
        exact List.mem_append_left _ heH
      · rw [hH2eq, List.length_append]
        omega
      · omega
      · -- placed' nodup
        rw [hplaced', List.nodup_append]
        exact ⟨hndP, hndI, hPdisjI⟩
      · -- placed' subset nodes
        rw [hplaced']
        intro x hx
        rcases List.mem_append.mp hx with hx' | hx'
        · exact hsubP x hx'
        · exact hsubI x hx'
      · -- take invariant
        rw [hplaced', hH2eq]
        intro x hx
        rw [List.take_append_of_le_length (by omega)] at hx
        have htk : H.take (i + 1) = H.take i ++ [H.get ⟨i, hi⟩] := by
          rw [← List.take_concat_get H i hi, List.concat_eq_append]
          rfl
        rw [htk] at hx
        rcases List.mem_append.mp hx with hx' | hx'
        · exact List.mem_append_left _ (htake x hx')
        · rcases List.mem_singleton.mp hx' with rfl
          exact List.mem_append_right _ hhdI
      · -- drop invariant
        rw [hplaced', hH2eq]
        intro x hx
        rw [List.drop_append_of_le_length (by omega)] at hx
        rcases List.mem_append.mp hx with hx' | hx'
        · -- x pending from the old queue
          intro hmem
          rcases List.mem_append.mp hmem with hxP | hxI
          · refine hdrop x ?_ hxP
            rw [hdropc]
            exact List.mem_cons_of_mem _ hx'
          · have hxH : x ∈ H := (List.drop_sublist _ _).mem hx'
            have := hIH x hxI hxH
            subst this
            exact hdnotd hx'
        · -- x newly pushed
          obtain ⟨-, hxnI, hxnH, p, hpx, hpI⟩ := hnewH x hx'
          intro hmem
          rcases List.mem_append.mp hmem with hxP | hxI
          · rcases hctx1 x hxP with hxH | ⟨-, hpsub⟩
            · exact hxnH hxH
            · exact hPdisjI p (hpsub p hpx) hpI
          · exact hxnI hxI
      · -- ctx1
        rw [hplaced', hH2eq]
        intro x hx
        rcases List.mem_append.mp hx with hxP | hxI
        · rcases hctx1 x hxP with hxH | ⟨hne, hpsub⟩
          · exact Or.inl (List.mem_append_left _ hxH)
          · exact Or.inr ⟨hne, fun p hp => List.mem_append_left _ (hpsub p hp)⟩
        · rw [hIeq] at hxI
          rcases List.mem_append.mp hxI with hxhd | hxadd
          · rcases List.mem_singleton.mp hxhd with rfl
            exact Or.inl (List.mem_append_left _ hdH)
          · obtain ⟨hne, -, hpsub⟩ := haddI x hxadd
            exact Or.inr ⟨hne, fun p hp => List.mem_append_right _ (hpsub p hp)⟩
      · -- ctx2
        rw [hplaced', hH2eq]
        intro x hx
        rcases List.mem_append.mp hx with hxH | hxnew
        · rcases hctx2 x hxH with rfl | ⟨p, hp, hpP⟩
          · exact Or.inl rfl
          · exact Or.inr ⟨p, hp, List.mem_append_left _ hpP⟩
        · obtain ⟨-, -, -, p, hp, hpI⟩ := hnewH x hxnew
          exact Or.inr ⟨p, hp, List.mem_append_right _ hpI⟩
      · -- closure for all intervals
        intro I' hI' n hn
        rcases List.mem_append.mp hI' with hI'old | hI'new
        · rcases hclo I' hI'old n hn with hnH | hrest
          · exact Or.inl (hH2eq ▸ List.mem_append_left _ hnH)
          · exact Or.inr hrest
        · rcases List.mem_singleton.mp hI'new with rfl
          rcases hclose n ((hscan n).mpr hn) with hnH2 | hnI | hnp
          · exact Or.inl hnH2
          · exact Or.inr (Or.inl hnI)
          · exact Or.inr (Or.inr hnp)
    · rw [dif_neg hi]
      have hieq : i = H.length := le_antisymm hiH (le_of_not_lt hi)
      have htakeall : ∀ x ∈ H, x ∈ (acc.map Interval.inodes).flatten := by
        intro x hx
        refine htake x ?_
        rw [hieq, List.take_length]
        exact hx
      have hcov : ∀ x, Reaches g e x → x ∈ (acc.map Interval.inodes).flatten := by
        intro x hr
        induction hr with
        | refl => exact htakeall e heH
        | tail hab hstep ihr =>
          rename_i b c
          obtain ⟨l, hl, hbl⟩ := List.mem_flatten.mp ihr
          obtain ⟨I', hI', hIeq'⟩ := List.mem_map.mp hl
          rcases hclo I' hI' c hstep.2.1 with hcH | hcI | hcp
          · exact htakeall c hcH
          · exact List.mem_flatten.mpr ⟨I'.inodes, List.mem_map_of_mem _ hI', hcI⟩
          · exact absurd (hIeq' ▸ hbl)
              (hcp b (mem_preds.mpr ⟨hstep.1, hstep.2.2⟩))
      refine ⟨acc, rfl, List.Subperm.antisymm ?_ ?_⟩
      · exact List.subperm_of_subset hndP hsubP
      · exact List.subperm_of_subset hwf.1 (fun x hx => hcov x (hreach x hx))

/-- C1: for every graph in which each node is reachable from the entry, the
list of intervals returned by Intervals(g, entry) covers exactly the graph's
nodes and each node belongs to exactly one interval in the returned
sequence: the concatenation of the interval node sets is a permutation of
the graph's node set. -/
theorem C1_intervals_partition (g : Graph) (e : String) (post : String → Nat)
    (hwf : WF g) (he : e ∈ g.nodes)
    (hreach : ∀ n ∈ g.nodes, Reaches g e n) :
    ∃ is, Intervals g e post = some is ∧
      ((is.map Interval.inodes).flatten).Perm g.nodes := by
  refine intervalsRun_spec g e (sortDescBy post g.nodes) hwf hreach
    (fun x => mem_sortDescBy) (g.nodes.length + 2) [e] 0 []
    (List.nodup_singleton e) ?_ (List.mem_singleton_self e) (by simp) (by omega)
    (by simp) (by simp) (by simp) (by simp) (by simp) ?_ (by simp)
  · intro x hx
    rcases List.mem_singleton.mp hx with rfl
    exact he
  · intro x hx
    rcases List.mem_singleton.mp hx with rfl
    exact Or.inl rfl

theorem C1_intervals_partition_witness :
    (WF mergeDemoSrc ∧ "a" ∈ mergeDemoSrc.nodes ∧
      (∀ n ∈ mergeDemoSrc.nodes, Reaches mergeDemoSrc "a" n)) ∧
    (∃ is, Intervals mergeDemoSrc "a" (fun _ => 0) = some is ∧
      ((is.map Interval.inodes).flatten).Perm mergeDemoSrc.nodes) := by
  have hreach : ∀ n ∈ mergeDemoSrc.nodes, Reaches mergeDemoSrc "a" n := by
    intro n hn
    rcases List.mem_cons.mp hn with rfl | hn2
    · exact Relation.ReflTransGen.refl
    · rcases List.mem_cons.mp hn2 with rfl | hn3
      · exact Relation.ReflTransGen.single ⟨by decide, by decide, by decide⟩
      · rcases List.mem_cons.mp hn3 with rfl | hn4
        · exact Relation.ReflTransGen.head
            (show Step mergeDemoSrc "a" "b" from ⟨by decide, by decide, by decide⟩)
            (Relation.ReflTransGen.single
              (show Step mergeDemoSrc "b" "c" from ⟨by decide, by decide, by decide⟩))
        · simp at hn4
  exact ⟨⟨⟨by decide, by decide⟩, by decide, hreach⟩,
    C1_intervals_partition mergeDemoSrc "a" (fun _ => 0) ⟨by decide, by decide⟩
      (by decide) hreach⟩

/-- One pass of `cfa.DerivedGraphSeq` (src/cfa/cfa.go:49-86): compute the
intervals of the current graph from its entry (Modelled from the spec: the
`Entry` getter of `cfg.Graph` is not under src/ and is modelled, per the spec
and the older variant in src/unnamed/part_006, as returning the graph's entry
field; when that field is nil the `flow.Intervals` call panics, since the
collapsed interval node has no predecessors and is not the nil entry, hitting
the missing-predecessors panic of `find2_2`), then collapse each interval
into a fresh node I<intNum> via `cfg.Merge`, threading the interval counter. -/
def derivedStep (G : Graph) (intNum : Nat) (post : String → Nat) :
    Option (Graph × Nat) :=
  match G.entry with
  | Option.none => Option.none
  | some e =>
    match Intervals G e post with
    | Option.none => Option.none
    | some is =>
      some (is.foldl
        (fun p I => (Merge p.1 I.inodes ("I" ++ toString p.2), p.2 + 1))
        (G, intNum))

/-- The outer loop of `cfa.DerivedGraphSeq` (src/cfa/cfa.go:49-91): while the
current graph has more than one node, run one interval-collapsing pass and
append the resulting graph to the sequence; the fuel bounds the number of
iterations of the unbounded Go for-loop, and `Option.none` models a panic or
an iteration budget exhausted without normal return. -/
def derivedLoop (post : String → Nat) :
    Nat → Graph → Nat → List Graph → Option (List Graph)
  | 0, _, _, _ => Option.none
  | fuel + 1, G, intNum, Gs =>
    if G.nodes.length > 1 then
      match derivedStep G intNum post with
      | Option.none => Option.none
      | some (G2, intNum2) => derivedLoop post fuel G2 intNum2 (Gs ++ [G2])
    else some Gs

/-- `cfa.DerivedGraphSeq` (src/cfa/cfa.go:41-93): the sequence starts with
G^1 = G and each further graph collapses the intervals of its predecessor;
there is no check that a pass reduced the graph. -/
def DerivedGraphSeq (src : Graph) (post : String → Nat) (fuel : Nat) :
    Option (List Graph) :=
  derivedLoop post fuel src 1 [src]

/-- An irreducible graph: a is the entry, with the unstructured cycle
b <-> c entered at both b and c. -/
def irr3 : Graph :=
  { nodes := ["a", "b", "c"],
    edges := [("a", "b"), ("a", "c"), ("b", "c"), ("c", "b")],
    entry := some "a" }

/-- C4: refuted - `DerivedGraphSeq` does not stop gracefully on an
irreducible graph. On irr3 the first pass finds only singleton intervals, so
the collapse produces a graph with the same number of nodes (3, no
reduction) whose entry reference has gone stale (the entry node's interval
was merged away and `Merge` never transfers the entry, so the next copy
drops it: entry nil). The loop has no no-progress check, and the second pass
panics inside `flow.Intervals` (nil entry; the collapsed interval node has
no predecessors), so the function never returns normally for any iteration
budget, instead of leaving the irreducible graph as-is. -/
theorem C4_derived_seq_aborts :
    ((derivedStep irr3 1 (fun _ => 0)).map
        (fun p => (p.1.nodes.length, p.1.entry)) = some (3, Option.none)) ∧
    ∀ fuel, DerivedGraphSeq irr3 (fun _ => 0) fuel = Option.none := by
  refine ⟨by decide, ?_⟩
  intro fuel
  cases fuel with
  | zero => rfl
  | succ n =>
    cases n with
    | zero => rfl
    | succ m => rfl

end CfgExp
